import Mathlib

/-!
LabWork02: Golomb coder and predictive image codec.

A shallow embedding of `src/image_codec.cpp` (class `ImageCodec`) together with the
Golomb coder it drives.  The coder's implementation (`golomb.h`, `golomb.cpp`) is not part
of the sources at hand, only its test program is, so the coder is modelled from the
specification; every such definition says so in its doc comment.

Conventions of the embedding.

* `std::vector<bool>` is `List Bool`, `std::vector<unsigned char>` is `List Nat`
  (a sample is 8-bit when it is `≤ 255`), `std::vector<int>` is `List Int`.
* `int` values are `Int`, `unsigned int` values are `Nat`.  Where a 32-bit `int`
  computation can leave the 32-bit range on an input the function accepts, its result is
  wrapped explicitly (`int32`, two's complement): the raster indices of `predictPixel32`
  and `computeResiduals32`, the arguments `width * height` and `width * height * 8` of the
  two `reserve` calls of `encode`, and the sum and differences of `paethPredictor`.
  Arithmetic on samples (`unsigned char` promoted to `int`) stays far inside 32 bits and
  is left exact.
* `predictPixel`, `computeResiduals` and `decode` take non-negative dimensions (`Nat`) and
  compute raster indices exactly; they are what the source computes on rasters of at most
  `2^31 - 1` samples (`predictPixel32_eq`, `computeResiduals32_eq`).  `encode` takes the
  signed dimensions of the source.
* Functions that can throw, or that index a vector without a bounds check, return
  `Except CodecError`; an unchecked access outside the vector is `CodecError.outOfBounds`
  (undefined behaviour in the source).
* The three double-precision operations of `calculateOptimalM` are a parameter
  (`DoubleOps`).
-/

set_option autoImplicit false

/-- Error kinds of the specification (section 7), `outOfBounds` for an unchecked
`operator[]` access past the end of a vector, and `lengthError` for the `std::length_error`
a vector throws when asked for more than `max_size()` elements. -/
inductive CodecError where
  | invalidParameter
  | invalidShape
  | malformed
  | outOfBounds
  | lengthError
  deriving DecidableEq, Repr

deriving instance DecidableEq for Except

/-! ## Bit helpers -/

/-- The loop `for (int i = count - 1; i >= 0; i--) sink.push_back((value >> i) & 1);`. -/
def pushBits : Nat → Nat → List Bool → List Bool
  | 0, _, sink => sink
  | i + 1, value, sink => pushBits i value (sink ++ [value.testBit i])

/-- The same loop on a signed `int value`: `(value >> i) & 1` is bit `i` of the two's
complement representation. -/
def pushBitsInt : Nat → Int → List Bool → List Bool
  | 0, _, sink => sink
  | i + 1, value, sink => pushBitsInt i value (sink ++ [value.testBit i])

/-- The value a 32-bit `int` holds when the exact result of the computation is `v`: the
representative of `v` modulo `2^32` in `[-2^31, 2^31)`. -/
def int32 (v : Int) : Int :=
  (v + 2147483648) % 4294967296 - 2147483648

/-- The `count` low bits of `value`, most significant first, as a fresh sequence. -/
def bitsMSB (count value : Nat) : List Bool :=
  pushBits count value []

/-- The loop `acc = 0; for (bit : bits) acc = (acc << 1) | bit;`. -/
def readMSB (bits : List Bool) : Nat :=
  bits.foldl (fun acc bit => (acc <<< 1) ||| bit.toNat) 0

/-! ## Golomb coder (modelled from the specification) -/

/-- Modelled from the spec: the sign-mapping mode `Golomb::NegativeMode` declared in the
absent `golomb.h` (section 3: mode ∈ {SIGN_MAGNITUDE, INTERLEAVING}). -/
inductive Golomb.NegativeMode where
  | SIGN_MAGNITUDE
  | INTERLEAVING
  deriving DecidableEq, Repr

/-- Modelled from the spec: the state of a `Golomb` instance of the absent `golomb.h`
(section 3): the divisor `m`, the derived code length `b`, the derived threshold `t` and
the mode. -/
structure Golomb where
  m : Nat
  b : Nat
  t : Nat
  mode : Golomb.NegativeMode
  deriving DecidableEq, Repr

/-- Modelled from the spec: the value and bit count returned by the absent
`Golomb::decode` (section 4.1: `decode(bits, pos) → {value, bitsConsumed}`). -/
structure Golomb.DecodeResult where
  value : Int
  bitsConsumed : Nat
  deriving DecidableEq, Repr

namespace Golomb

/-- Search for the least `b` with `m ≤ 2^b`, starting from `b`, in at most `fuel` steps. -/
def ceilLog2Aux : Nat → Nat → Nat → Nat
  | 0, _, b => b
  | fuel + 1, m, b => if m ≤ 2 ^ b then b else ceilLog2Aux fuel m (b + 1)

/-- Modelled from the spec: `b = ⌈log₂ m⌉` (section 3), computed in the absent
`golomb.cpp`. -/
def ceilLog2 (m : Nat) : Nat :=
  ceilLog2Aux m m 0

/-- Modelled from the spec: the threshold `t = 2^b − m` (section 3) of the absent
`golomb.cpp`, with the edge case of section 4.1: "When m = 1, b = 0, t = 1, and the
remainder phase is empty". -/
def threshold (m : Nat) : Nat :=
  if m = 1 then 1 else 2 ^ ceilLog2 m - m

/-- Modelled from the spec: recomputation of the derived fields `b` and `t` from `m`
(section 3 invariant; section 4.1: "Any public operation transitions PARAM_STALE → READY
before doing work"), part of the absent `golomb.cpp`. -/
def updateParameters (g : Golomb) : Golomb :=
  { g with b := ceilLog2 g.m, t := threshold g.m }

/-- Modelled from the spec: the constructor of the absent `golomb.cpp`
(section 4.1: "Construct(m, mode): m ≥ 1; fails with INVALID_PARAMETER if m = 0"). -/
def construct (m : Nat) (mode : NegativeMode) : Except CodecError Golomb :=
  if m = 0 then .error .invalidParameter
  else .ok (updateParameters { m := m, b := 0, t := 0, mode := mode })

/-- Modelled from the spec: `setM` of the absent `golomb.cpp` (section 4.1 and section 7:
INVALID_PARAMETER for `m = 0` at reassignment).  It assigns `m` only; `b` and `t` are
brought up to date by the next public operation (state PARAM_STALE). -/
def setM (g : Golomb) (m : Nat) : Except CodecError Golomb :=
  if m = 0 then .error .invalidParameter else .ok { g with m := m }

/-- Modelled from the spec: the sign mapping of the absent `golomb.cpp` (section 4.1).
SIGN_MAGNITUDE: `n = |v|·2 + (v < 0 ? 1 : 0)`.  INTERLEAVING: `v ≥ 0 ⇒ n = 2v`,
`v < 0 ⇒ n = 2|v| − 1`. -/
def mapSigned (mode : NegativeMode) (v : Int) : Nat :=
  match mode with
  | .SIGN_MAGNITUDE => v.natAbs * 2 + (if v < 0 then 1 else 0)
  | .INTERLEAVING => if 0 ≤ v then 2 * v.natAbs else 2 * v.natAbs - 1

/-- Modelled from the spec: the inverse sign mapping of the absent `golomb.cpp`
(section 4.1).  SIGN_MAGNITUDE: magnitude `n/2`, negative iff `n` is odd.  INTERLEAVING:
even `n → n/2`, odd `n → −((n+1)/2)`. -/
def unmapSigned (mode : NegativeMode) (n : Nat) : Int :=
  match mode with
  | .SIGN_MAGNITUDE => if n % 2 = 1 then -((n / 2 : Nat) : Int) else ((n / 2 : Nat) : Int)
  | .INTERLEAVING => if n % 2 = 0 then ((n / 2 : Nat) : Int) else -(((n + 1) / 2 : Nat) : Int)

/-- The unary phase of encoding: `q` one-bits appended to the sink, then a zero bit. -/
def pushUnary : Nat → List Bool → List Bool
  | 0, sink => sink ++ [false]
  | q + 1, sink => pushUnary q (sink ++ [true])

/-- Modelled from the spec: `encodeTo(value, sink)` of the absent `golomb.cpp`
(section 4.1, Algorithm): the unary quotient `q = ⌊n/m⌋` (one-bits and a terminating
zero), then the truncated-binary remainder `r = n mod m`: `r` in `b−1` bits if `r < t`,
else `r + t` in `b` bits; all appended to `sink`. -/
def encodeTo (g : Golomb) (value : Int) (sink : List Bool) : List Bool :=
  let g := updateParameters g
  let n := mapSigned g.mode value
  let q := n / g.m
  let r := n % g.m
  let sink := pushUnary q sink
  if r < g.t then pushBits (g.b - 1) r sink else pushBits g.b (r + g.t) sink

/-- Modelled from the spec: `encode(value)` of the absent `golomb.cpp` (section 4.1:
"returns a freshly allocated bit sequence"): the same algorithm on an empty sequence. -/
def encode (g : Golomb) (value : Int) : List Bool :=
  let g := updateParameters g
  let n := mapSigned g.mode value
  let q := n / g.m
  let r := n % g.m
  List.replicate q true ++ [false] ++
    (if r < g.t then bitsMSB (g.b - 1) r else bitsMSB g.b (r + g.t))

/-- The unary phase of decoding: count leading one-bits until a zero is consumed.
Returns the count and the number of bits read, or nothing when the bits run out. -/
def readUnary : List Bool → Option (Nat × Nat)
  | [] => none
  | false :: _ => some (0, 1)
  | true :: rest => (readUnary rest).map fun qc => (qc.1 + 1, qc.2 + 1)

/-- Read `count` bits (most significant first) at the front of `bits`; nothing when fewer
than `count` bits are left. -/
def readBits (count : Nat) (bits : List Bool) : Option Nat :=
  if count ≤ bits.length then some (readMSB (bits.take count)) else none

/-- Modelled from the spec: one symbol decoded from the front of `bits` (section 4.1):
count the leading one-bits up to the zero (`q`); read `b−1` bits as `r'`; if `r' < t`
then `r = r'`, otherwise read one more bit and `r = 2·r' + bit − t`; `n = q·m + r`;
invert the sign mapping.  MALFORMED when the bits end inside the symbol or the remainder
is out of range. -/
def decodeFront (g : Golomb) (bits : List Bool) : Except CodecError DecodeResult :=
  let g := updateParameters g
  match readUnary bits with
  | none => .error .malformed
  | some (q, used) =>
    match readBits (g.b - 1) (bits.drop used) with
    | none => .error .malformed
    | some r' =>
      if r' < g.t then
        if r' < g.m then
          .ok { value := unmapSigned g.mode (q * g.m + r'), bitsConsumed := used + (g.b - 1) }
        else .error .malformed
      else
        match bits.drop (used + (g.b - 1)) with
        | [] => .error .malformed
        | bit :: _ =>
          let r := 2 * r' + bit.toNat - g.t
          if r < g.m then
            .ok { value := unmapSigned g.mode (q * g.m + r), bitsConsumed := used + (g.b - 1) + 1 }
          else .error .malformed

/-- Modelled from the spec: `decode(bits, pos)` of the absent `golomb.cpp` (section 4.1:
"reads one symbol starting at index pos"). -/
def decode (g : Golomb) (bits : List Bool) (pos : Nat) : Except CodecError DecodeResult :=
  decodeFront g (bits.drop pos)

end Golomb

/-- Modelled from the spec: the mode of the one-argument constructor `Golomb coder(m)` used
by the image codec; the default mode is declared in the absent `golomb.h` (section 6:
"each residual is one Golomb codeword under the header's m and the INTERLEAVING sign
mapping"). -/
def Golomb.defaultMode : Golomb.NegativeMode :=
  .INTERLEAVING

/-! ## Image codec (`src/image_codec.cpp`) -/

/-- Unchecked `v[i]` on a `std::vector`: the element, or `outOfBounds` past the end. -/
def vectorAt {α : Type} (v : List α) (i : Nat) : Except CodecError α :=
  match v[i]? with
  | some a => .ok a
  | none => .error .outOfBounds

/-- Unchecked `v[i]` with an `int` index: the index is converted to `size_t`, so a negative
one lies far past the end. -/
def vectorAtInt {α : Type} (v : List α) (i : Int) : Except CodecError α :=
  if i < 0 then .error .outOfBounds else vectorAt v i.toNat

/-- The call `v.reserve(n)` with an `int` argument: the argument is converted to `size_t`,
so a negative one is above `max_size()` and the call throws `std::length_error`; otherwise
the call only sets the capacity. -/
def reserve (n : Int) : Except CodecError Unit :=
  if n < 0 then .error .lengthError else .ok ()

/-- The loop `for (int i = 0; i < n; i++) body(i)` over a state, stopping at the first
exception. -/
def forRange {σ : Type} (n : Nat) (body : Nat → σ → Except CodecError σ) (init : σ) :
    Except CodecError σ :=
  (List.range n).foldlM (fun s i => body i s) init

/-- The double-precision operations of `ImageCodec::calculateOptimalM`, as functions of
the sum of the absolute residuals and of the number of residuals. -/
structure DoubleOps where
  /-- The test `mean < 1e-10` for `mean = sum / residuals.size()`. -/
  meanBelowEps : Nat → Nat → Bool
  /-- The value `static_cast<unsigned int>(std::round(-1.0 / std::log2(1.0 - p)))` for
  `p = 1.0 / (mean + 1.0)`. -/
  roundedM : Nat → Nat → Nat

namespace ImageCodec

/-- Modelled from the spec: the enumeration `ImageCodec::Predictor` declared in the absent
`image_codec.h`; the enumerators are those named in `predictPixel`. -/
inductive Predictor where
  | PREV_PIXEL
  | ABOVE_PIXEL
  | AVERAGE_PREDICTOR
  | PAETH_PREDICTOR
  | JPEG_LS_PREDICTOR
  | GRADIENT_PREDICTOR
  deriving DecidableEq, Repr

/-- Modelled from the spec: the value `static_cast<int>(predictor)` of each enumerator,
fixed by the absent `image_codec.h` (section 6: 0=PREV, 1=ABOVE, 2=AVERAGE, 3=PAETH,
4=JPEG_LS, 5=GRADIENT). -/
def Predictor.toNat : Predictor → Nat
  | .PREV_PIXEL => 0
  | .ABOVE_PIXEL => 1
  | .AVERAGE_PREDICTOR => 2
  | .PAETH_PREDICTOR => 3
  | .JPEG_LS_PREDICTOR => 4
  | .GRADIENT_PREDICTOR => 5

/-- `ImageCodec::paethPredictor`, in 32-bit `int` arithmetic: the sum, the differences and
the absolute values wrap (`|INT_MIN|` is `INT_MIN`). -/
def paethPredictor (a b c : Int) : Int :=
  let p := int32 (int32 (a + b) - c)
  let pa := int32 (int32 (p - a)).natAbs
  let pb := int32 (int32 (p - b)).natAbs
  let pc := int32 (int32 (p - c)).natAbs
  if pa ≤ pb ∧ pa ≤ pc then a
  else if pb ≤ pc then b
  else c

/-- `ImageCodec::predictPixel` with the raster indices computed exactly, which is what the
source computes whenever `y * width + x` fits in a 32-bit `int` (`predictPixel32_eq`).
The `default:` branch of the switch is not reachable from the six enumerators. -/
def predictPixel (predictor : Predictor) (image : List Nat) (width x y : Nat) :
    Except CodecError Int := do
  let leftSample : Nat ← if x > 0 then vectorAt image (y * width + x - 1) else pure 0
  let aboveSample : Nat ← if y > 0 then vectorAt image ((y - 1) * width + x) else pure 0
  let upperLeftSample : Nat ←
    if x > 0 ∧ y > 0 then vectorAt image ((y - 1) * width + x - 1) else pure 0
  let left : Int := leftSample
  let above : Int := aboveSample
  let upperLeft : Int := upperLeftSample
  match predictor with
  | .PREV_PIXEL => pure left
  | .ABOVE_PIXEL => pure above
  | .AVERAGE_PREDICTOR => pure ((left + above).tdiv 2)
  | .PAETH_PREDICTOR => pure (paethPredictor left above upperLeft)
  | .JPEG_LS_PREDICTOR => pure (left + above - upperLeft)
  | .GRADIENT_PREDICTOR => pure (left + (above - upperLeft).tdiv 2)

/-- `ImageCodec::predictPixel` with the raster indices computed as the source does, in
32-bit `int` arithmetic, and converted to `size_t` by `operator[]`. -/
def predictPixel32 (predictor : Predictor) (image : List Nat) (width x y : Int) :
    Except CodecError Int := do
  let leftSample : Nat ←
    if x > 0 then vectorAtInt image (int32 (int32 (int32 (y * width) + x) - 1)) else pure 0
  let aboveSample : Nat ←
    if y > 0 then vectorAtInt image (int32 (int32 (int32 (y - 1) * width) + x)) else pure 0
  let upperLeftSample : Nat ←
    if x > 0 ∧ y > 0 then
      vectorAtInt image (int32 (int32 (int32 (int32 (y - 1) * width) + x) - 1))
    else pure 0
  let left : Int := leftSample
  let above : Int := aboveSample
  let upperLeft : Int := upperLeftSample
  match predictor with
  | .PREV_PIXEL => pure left
  | .ABOVE_PIXEL => pure above
  | .AVERAGE_PREDICTOR => pure ((left + above).tdiv 2)
  | .PAETH_PREDICTOR => pure (paethPredictor left above upperLeft)
  | .JPEG_LS_PREDICTOR => pure (left + above - upperLeft)
  | .GRADIENT_PREDICTOR => pure (left + (above - upperLeft).tdiv 2)

/-- `ImageCodec::calculateOptimalM`.  The sum of the absolute residuals is kept exact (a
`double` holds it exactly below `2^53`); the comparison with `1e-10` and the rounded
quotient of logarithms are the parameter `fp`. -/
def calculateOptimalM (fp : DoubleOps) (residuals : List Int) : Nat :=
  if residuals.isEmpty then 8
  else
    let sum := residuals.foldl (fun sum residual => sum + residual.natAbs) 0
    if fp.meanBelowEps sum residuals.length then 1
    else max 1 (fp.roundedM sum residuals.length)

/-- The two loops of the first pass of `ImageCodec::encode` (lines 68-74) with the raster
indices computed exactly: the residuals in raster order.  It is what the source computes
on rasters of at most `2^31 - 1` samples (`computeResiduals32_eq`). -/
def computeResiduals (predictor : Predictor) (image : List Nat) (width height : Nat) :
    Except CodecError (List Int) :=
  forRange height (fun y residuals =>
    forRange width (fun x residuals => do
      let predicted ← predictPixel predictor image width x y
      let actual ← vectorAt image (y * width + x)
      pure (residuals ++ [(actual : Int) - predicted])) residuals) []

/-- The two loops of the first pass of `ImageCodec::encode` (lines 68-74) as the source
runs them: `int` loop counters below the signed bounds `height` and `width` (no iteration
for a bound that is not positive), raster indices in 32-bit `int` arithmetic. -/
def computeResiduals32 (predictor : Predictor) (image : List Nat) (width height : Int) :
    Except CodecError (List Int) :=
  forRange height.toNat (fun y residuals =>
    forRange width.toNat (fun x residuals => do
      let predicted ← predictPixel32 predictor image width x y
      let actual ← vectorAtInt image (int32 (int32 (y * width) + x))
      pure (residuals ++ [(actual : Int) - predicted])) residuals) []

/-- `ImageCodec::encode`.  The member `optimalM` it assigns is read by no other member
function, so it is kept as a local value. -/
def encode (fp : DoubleOps) (predictor : Predictor) (image : List Nat) (width height : Int) :
    Except CodecError (List Bool) := do
  reserve (int32 (width * height))
  let residuals ← computeResiduals32 predictor image width height
  let optimalM := calculateOptimalM fp residuals
  let coder ← Golomb.construct optimalM Golomb.defaultMode
  let encoded : List Bool := []
  reserve (int32 (int32 (width * height) * 8))
  let encoded := pushBitsInt 16 width encoded
  let encoded := pushBitsInt 16 height encoded
  let encoded := pushBits 16 optimalM encoded
  let encoded := pushBits 4 predictor.toNat encoded
  let encoded := encoded ++ List.replicate 12 false
  pure (residuals.foldl (fun encoded residual => coder.encodeTo residual encoded) encoded)

/-- The header read of `ImageCodec::decode` (lines 105-108): bits 32..47, unchecked. -/
def readStoredM (encoded : List Bool) : Except CodecError Nat :=
  (List.range' 32 16).foldlM
    (fun storedM i => do
      let bit ← vectorAt encoded i
      pure ((storedM <<< 1) ||| bit.toNat)) 0

/-- The body of the pixel loop of `ImageCodec::decode` (lines 116-128), on the state
made of the raster under reconstruction and the bit position.  The raster index
`y * width + x` is exact, as in `predictPixel`. -/
def decodePixel (predictor : Predictor) (coder : Golomb) (encoded : List Bool)
    (width x y : Nat) (state : List Nat × Nat) : Except CodecError (List Nat × Nat) := do
  let (image, bitPos) := state
  let result ← coder.decode encoded bitPos
  let bitPos := bitPos + result.bitsConsumed
  let predicted ← predictPixel predictor image width x y
  let pixelValue := predicted + result.value
  let pixelValue := max 0 (min 255 pixelValue)
  pure (image.set (y * width + x) pixelValue.toNat, bitPos)

/-- The two nested loops of `ImageCodec::decode` (lines 114-130). -/
def decodePixels (predictor : Predictor) (coder : Golomb) (encoded : List Bool)
    (width height : Nat) (state : List Nat × Nat) : Except CodecError (List Nat × Nat) :=
  forRange height (fun y state =>
    forRange width (fun x state => decodePixel predictor coder encoded width x y state) state)
    state

/-- `ImageCodec::decode` for non-negative dimensions, with `width * height` and the raster
indices exact: what the source computes when `width * height` fits a 32-bit `int`.  The
store `image[y * width + x] = ...` of the loop body is always inside the raster of
`width * height` samples allocated here. -/
def decode (predictor : Predictor) (encoded : List Bool) (width height : Nat) :
    Except CodecError (List Nat) := do
  let image : List Nat := List.replicate (width * height) 0
  let storedM ← readStoredM encoded
  let coder ← Golomb.construct storedM Golomb.defaultMode
  let bitPos : Nat := 64
  let (image, _) ← decodePixels predictor coder encoded width height (image, bitPos)
  pure image

end ImageCodec

/-! ## Total counterparts used to state the results -/

/-- The `switch` of `predictPixel` on the three neighbour values. -/
def ImageCodec.predictFrom (predictor : ImageCodec.Predictor) (left above upperLeft : Int) : Int :=
  match predictor with
  | .PREV_PIXEL => left
  | .ABOVE_PIXEL => above
  | .AVERAGE_PREDICTOR => (left + above).tdiv 2
  | .PAETH_PREDICTOR => ImageCodec.paethPredictor left above upperLeft
  | .JPEG_LS_PREDICTOR => left + above - upperLeft
  | .GRADIENT_PREDICTOR => left + (above - upperLeft).tdiv 2

/-- The prediction at `(x, y)` with every neighbour read through a defaulting access. -/
def ImageCodec.predictTotal (predictor : ImageCodec.Predictor) (image : List Nat)
    (width x y : Nat) : Int :=
  ImageCodec.predictFrom predictor
    (if 0 < x then (image.getD (y * width + x - 1) 0 : Int) else 0)
    (if 0 < y then (image.getD ((y - 1) * width + x) 0 : Int) else 0)
    (if 0 < x ∧ 0 < y then (image.getD ((y - 1) * width + x - 1) 0 : Int) else 0)

/-- The residual at raster index `k`: sample minus prediction. -/
def ImageCodec.residualAt (predictor : ImageCodec.Predictor) (image : List Nat)
    (width k : Nat) : Int :=
  (image.getD k 0 : Int) - ImageCodec.predictTotal predictor image width (k % width) (k / width)

/-- The 64 header bits of a frame: width, height and divisor on 16 bits each, the
predictor id on 4 bits, 12 zero bits. -/
def ImageCodec.headerBits (width height m : Nat) (predictor : ImageCodec.Predictor) :
    List Bool :=
  bitsMSB 16 width ++ bitsMSB 16 height ++ bitsMSB 16 m ++ bitsMSB 4 predictor.toNat
    ++ List.replicate 12 false

/-- The residuals of a raster, in raster order. -/
def ImageCodec.residualList (predictor : ImageCodec.Predictor) (image : List Nat)
    (width height : Nat) : List Int :=
  (List.range (width * height)).map (ImageCodec.residualAt predictor image width)

/-- The coder a successful `Golomb.construct m mode` returns. -/
def Golomb.coderOf (m : Nat) (mode : Golomb.NegativeMode) : Golomb :=
  Golomb.updateParameters { m := m, b := 0, t := 0, mode := mode }

/-- A result satisfies `P` when it is a value and `E` when it is an error. -/
def Outcome {σ : Type} (P : σ → Prop) (E : CodecError → Prop) : Except CodecError σ → Prop
  | .ok s => P s
  | .error e => E e

/-- Modelled from the spec: decoding `count` symbols one after another from `bits`
(section 8, law 2: "decode the concatenation of N random symbols"), each starting at the
position where the previous one ended (`bitPos += result.bitsConsumed`, as the pixel loop
of `ImageCodec::decode` does).  Returns the values and the final position. -/
def Golomb.decodeStream (g : Golomb) (bits : List Bool) :
    Nat → Nat → Except CodecError (List Int × Nat)
  | 0, pos => .ok ([], pos)
  | count + 1, pos =>
    match g.decode bits pos with
    | .error e => .error e
    | .ok result =>
      match Golomb.decodeStream g bits count (pos + result.bitsConsumed) with
      | .error e => .error e
      | .ok (values, endPos) => .ok (result.value :: values, endPos)

/-- The raster indices `predictPixel` reads at `(x, y)` (lines 21-23 of
`image_codec.cpp`): left, above and upper-left, each under its guard. -/
def ImageCodec.readIndices (width x y : Nat) : List Nat :=
  (if x > 0 then [y * width + x - 1] else []) ++
    (if y > 0 then [(y - 1) * width + x] else []) ++
    (if x > 0 ∧ y > 0 then [(y - 1) * width + x - 1] else [])

/-- The raster indices `predictPixel32` passes to `operator[]` at `(x, y)`, as 32-bit
`int` values: left, above and upper-left, each under its guard. -/
def ImageCodec.readIndices32 (width x y : Int) : List Int :=
  (if x > 0 then [int32 (int32 (int32 (y * width) + x) - 1)] else []) ++
    (if y > 0 then [int32 (int32 (int32 (y - 1) * width) + x)] else []) ++
    (if x > 0 ∧ y > 0 then [int32 (int32 (int32 (int32 (y - 1) * width) + x) - 1)] else [])

/-- The PAETH rule over the integers, without wrap-around: of `a`, `b`, `c` the first in
that order among those closest to `a + b - c`. -/
def ImageCodec.paethExact (a b c : Int) : Int :=
  if (b - c).natAbs ≤ (a - c).natAbs ∧ (b - c).natAbs ≤ (a + b - 2 * c).natAbs then a
  else if (a - c).natAbs ≤ (a + b - 2 * c).natAbs then b
  else c

/-- The double-precision steps carried out in exact real arithmetic: `mean < 1e-10` is
`sum · 10^10 < size`, and `round(1 / log₂((sum + size) / sum))` is the least `k` with
`4 · sum^(2k+1) < (sum + size)^(2k+1)`. -/
def DoubleOps.exactSearch (sum size : Nat) : Nat → Nat → Nat
  | 0, k => k
  | fuel + 1, k =>
    if 4 * sum ^ (2 * k + 1) < (sum + size) ^ (2 * k + 1) then k
    else DoubleOps.exactSearch sum size fuel (k + 1)

/-- An instance of the double-precision operations: exact real arithmetic. -/
def DoubleOps.exact : DoubleOps where
  meanBelowEps sum size := decide (sum * 10 ^ 10 < size)
  roundedM sum size := DoubleOps.exactSearch sum size (sum + 1) 0

/-! ## Bit-level lemmas -/

theorem pushBits_eq_append (count value : Nat) (sink : List Bool) :
    pushBits count value sink = sink ++ bitsMSB count value := by
  induction count generalizing sink with
  | zero => simp [bitsMSB, pushBits]
  | succ n ih =>
    unfold bitsMSB
    rw [pushBits, ih, pushBits, ih ([] ++ _)]
    simp

theorem bitsMSB_zero (value : Nat) : bitsMSB 0 value = [] := rfl

theorem bitsMSB_succ (n value : Nat) :
    bitsMSB (n + 1) value = value.testBit n :: bitsMSB n value := by
  unfold bitsMSB
  rw [pushBits, pushBits_eq_append]
  simp [bitsMSB]

theorem bitsMSB_length (n value : Nat) : (bitsMSB n value).length = n := by
  induction n with
  | zero => rfl
  | succ n ih => simp [bitsMSB_succ, ih]

theorem bitsMSB_snoc (n value : Nat) :
    bitsMSB (n + 1) value = bitsMSB n (value / 2) ++ [value.testBit 0] := by
  induction n with
  | zero => simp [bitsMSB_succ, bitsMSB_zero]
  | succ n ih =>
    rw [bitsMSB_succ, ih, bitsMSB_succ, Nat.testBit_succ]
    simp

theorem readMSB_step (acc : Nat) (bit : Bool) :
    (acc <<< 1) ||| bit.toNat = 2 * acc + bit.toNat := by
  have h : bit.toNat < 2 ^ 1 := by cases bit <;> simp
  rw [Nat.shiftLeft_eq, Nat.mul_comm, ← Nat.mul_add_lt_is_or h, pow_one]

theorem readMSB_foldl (bits : List Bool) (acc : Nat) :
    bits.foldl (fun acc bit => (acc <<< 1) ||| bit.toNat) acc
      = acc * 2 ^ bits.length + readMSB bits := by
  induction bits generalizing acc with
  | nil => simp [readMSB]
  | cons b rest ih =>
    unfold readMSB
    simp only [List.foldl_cons, List.length_cons]
    rw [ih, ih (0 <<< 1 ||| b.toNat), readMSB_step, readMSB_step, pow_succ]
    ring

theorem readMSB_nil : readMSB [] = 0 := rfl

theorem readMSB_cons (bit : Bool) (bits : List Bool) :
    readMSB (bit :: bits) = bit.toNat * 2 ^ bits.length + readMSB bits := by
  unfold readMSB
  rw [List.foldl_cons, readMSB_foldl, readMSB_step]
  simp [readMSB]

theorem readMSB_bitsMSB (n value : Nat) : readMSB (bitsMSB n value) = value % 2 ^ n := by
  induction n with
  | zero => simp [bitsMSB_zero, readMSB_nil, Nat.mod_one]
  | succ n ih =>
    rw [bitsMSB_succ, readMSB_cons, ih, bitsMSB_length, Nat.toNat_testBit, Nat.mod_pow_succ]
    ring

theorem readMSB_bitsMSB_of_lt (n value : Nat) (h : value < 2 ^ n) :
    readMSB (bitsMSB n value) = value := by
  rw [readMSB_bitsMSB, Nat.mod_eq_of_lt h]

/-! ## Golomb coder lemmas -/

namespace Golomb

theorem ceilLog2Aux_spec (fuel m b : Nat) (hfuel : m ≤ 2 ^ (b + fuel))
    (hb : b = 0 ∨ 2 ^ (b - 1) < m) :
    m ≤ 2 ^ ceilLog2Aux fuel m b ∧
      (ceilLog2Aux fuel m b = 0 ∨ 2 ^ (ceilLog2Aux fuel m b - 1) < m) := by
  induction fuel generalizing b with
  | zero => simpa [ceilLog2Aux] using ⟨hfuel, hb⟩
  | succ fuel ih =>
    unfold ceilLog2Aux
    split
    · exact ⟨by assumption, hb⟩
    · rename_i hlt
      apply ih
      · rw [show b + 1 + fuel = b + (fuel + 1) by omega]; exact hfuel
      · right; simpa using hlt

theorem le_two_pow_ceilLog2 (m : Nat) : m ≤ 2 ^ ceilLog2 m :=
  (ceilLog2Aux_spec m m 0 (by simpa using (Nat.lt_two_pow m).le) (Or.inl rfl)).1

theorem ceilLog2_pred_lt (m : Nat) : ceilLog2 m = 0 ∨ 2 ^ (ceilLog2 m - 1) < m :=
  (ceilLog2Aux_spec m m 0 (by simpa using (Nat.lt_two_pow m).le) (Or.inl rfl)).2

theorem ceilLog2_pos (m : Nat) (hm : 2 ≤ m) : 1 ≤ ceilLog2 m := by
  have h := le_two_pow_ceilLog2 m
  by_contra hc
  have h0 : ceilLog2 m = 0 := by omega
  rw [h0] at h
  simp at h
  omega

theorem ceilLog2_eq_clog (m : Nat) : ceilLog2 m = Nat.clog 2 m := by
  apply le_antisymm
  · rcases ceilLog2_pred_lt m with h | h
    · omega
    · by_contra hc
      have hle : Nat.clog 2 m ≤ ceilLog2 m - 1 := by omega
      have := (Nat.le_pow_iff_clog_le (by norm_num : 1 < 2)).2 hle
      omega
  · exact (Nat.le_pow_iff_clog_le (by norm_num : 1 < 2)).1 (le_two_pow_ceilLog2 m)

theorem unmapSigned_mapSigned (mode : NegativeMode) (v : Int) :
    unmapSigned mode (mapSigned mode v) = v := by
  cases mode <;> simp only [unmapSigned, mapSigned] <;> split_ifs <;> omega

theorem pushUnary_eq_append (q : Nat) (sink : List Bool) :
    pushUnary q sink = sink ++ (List.replicate q true ++ [false]) := by
  induction q generalizing sink with
  | zero => simp [pushUnary]
  | succ q ih => rw [pushUnary, ih, List.replicate_succ]; simp

/-- `encodeTo` appends exactly the codeword `encode` returns. -/
theorem encodeTo_eq_append (g : Golomb) (value : Int) (sink : List Bool) :
    g.encodeTo value sink = sink ++ g.encode value := by
  simp only [encodeTo, encode, pushUnary_eq_append, pushBits_eq_append]
  split_ifs <;> simp

theorem readUnary_replicate (q : Nat) (rest : List Bool) :
    readUnary (List.replicate q true ++ false :: rest) = some (q, q + 1) := by
  induction q with
  | zero => simp [readUnary]
  | succ q ih => simp [List.replicate_succ, readUnary, ih]

theorem readBits_bitsMSB (n value : Nat) (rest : List Bool) (h : value < 2 ^ n) :
    readBits n (bitsMSB n value ++ rest) = some value := by
  unfold readBits
  have hl : n ≤ (bitsMSB n value ++ rest).length := by simp [bitsMSB_length]
  rw [if_pos hl]
  have : (bitsMSB n value ++ rest).take n = bitsMSB n value := by
    rw [List.take_append_of_le_length (by simp [bitsMSB_length])]
    exact List.take_of_length_le (by simp [bitsMSB_length])
  rw [this, readMSB_bitsMSB_of_lt n value h]

theorem drop_unary (q : Nat) (tail : List Bool) :
    (List.replicate q true ++ false :: tail).drop (q + 1) = tail := by
  rw [show List.replicate q true ++ false :: tail = (List.replicate q true ++ [false]) ++ tail
    by simp]
  exact List.drop_left' (by simp)

theorem drop_bitsMSB (n value : Nat) (tail : List Bool) :
    (bitsMSB n value ++ tail).drop n = tail :=
  List.drop_left' (bitsMSB_length n value)

/-- Decoding a symbol whose remainder is in the short (`b−1` bit) class. -/
theorem decodeFront_short (g : Golomb) (q r : Nat) (rest : List Bool)
    (hr : r < 2 ^ (ceilLog2 g.m - 1)) (ht : r < threshold g.m) (hm : r < g.m) :
    g.decodeFront (List.replicate q true ++ false :: (bitsMSB (ceilLog2 g.m - 1) r ++ rest))
      = .ok { value := unmapSigned g.mode (q * g.m + r),
              bitsConsumed := q + 1 + (ceilLog2 g.m - 1) } := by
  simp only [decodeFront, updateParameters, readUnary_replicate, drop_unary,
    readBits_bitsMSB _ _ _ hr, if_pos ht, if_pos hm]

/-- Decoding a symbol whose remainder is in the long (`b` bit) class. -/
theorem decodeFront_long (g : Golomb) (q r' : Nat) (bit : Bool) (rest : List Bool)
    (hr : r' < 2 ^ (ceilLog2 g.m - 1)) (ht : ¬ r' < threshold g.m)
    (hm : 2 * r' + bit.toNat - threshold g.m < g.m) :
    g.decodeFront
        (List.replicate q true ++ false :: (bitsMSB (ceilLog2 g.m - 1) r' ++ bit :: rest))
      = .ok { value := unmapSigned g.mode (q * g.m + (2 * r' + bit.toNat - threshold g.m)),
              bitsConsumed := q + 1 + (ceilLog2 g.m - 1) + 1 } := by
  have hd : (List.replicate q true ++ false :: (bitsMSB (ceilLog2 g.m - 1) r' ++ bit :: rest)).drop
      (q + 1 + (ceilLog2 g.m - 1)) = bit :: rest := by
    rw [← List.drop_drop, drop_unary, drop_bitsMSB]
  simp only [decodeFront, updateParameters, readUnary_replicate, drop_unary,
    readBits_bitsMSB _ _ _ hr, if_neg ht, hd, if_pos hm]

/-- For `m ≥ 2` the threshold is `2^b − m`, below `2^(b−1)`, and `b ≥ 1`. -/
theorem threshold_facts (m : Nat) (hm : 2 ≤ m) :
    1 ≤ ceilLog2 m ∧ threshold m + m = 2 ^ ceilLog2 m ∧
      threshold m < 2 ^ (ceilLog2 m - 1) ∧ 2 ^ ceilLog2 m = 2 * 2 ^ (ceilLog2 m - 1) := by
  have hb := ceilLog2_pos m hm
  have hle := le_two_pow_ceilLog2 m
  have hlt := ceilLog2_pred_lt m
  have hpow : 2 ^ ceilLog2 m = 2 * 2 ^ (ceilLog2 m - 1) := by
    conv_lhs => rw [show ceilLog2 m = (ceilLog2 m - 1) + 1 by omega]
    rw [pow_succ]; ring
  have ht : threshold m = 2 ^ ceilLog2 m - m := by
    unfold threshold; rw [if_neg (by omega)]
  refine ⟨hb, by omega, ?_, hpow⟩
  rcases hlt with h | h
  · omega
  · omega

theorem encode_eq (g : Golomb) (v : Int) :
    g.encode v = List.replicate (mapSigned g.mode v / g.m) true ++ false ::
      (if mapSigned g.mode v % g.m < threshold g.m
        then bitsMSB (ceilLog2 g.m - 1) (mapSigned g.mode v % g.m)
        else bitsMSB (ceilLog2 g.m) (mapSigned g.mode v % g.m + threshold g.m)) := by
  simp [encode, updateParameters]

/-- Golomb round trip on a stream: a codeword followed by anything decodes to its value,
consuming exactly the codeword. -/
theorem decodeFront_encode_append (g : Golomb) (hm : 1 ≤ g.m) (v : Int) (rest : List Bool) :
    g.decodeFront (g.encode v ++ rest)
      = .ok { value := v, bitsConsumed := (g.encode v).length } := by
  have hmap := unmapSigned_mapSigned g.mode v
  have hdm : mapSigned g.mode v / g.m * g.m + mapSigned g.mode v % g.m = mapSigned g.mode v :=
    Nat.div_add_mod' _ _
  have hrm : mapSigned g.mode v % g.m < g.m := Nat.mod_lt _ (by omega)
  rw [encode_eq]
  generalize mapSigned g.mode v / g.m = q at hdm
  generalize mapSigned g.mode v % g.m = r at hdm hrm
  by_cases hm1 : g.m = 1
  · have hb : ceilLog2 g.m = 0 := by rw [hm1]; rfl
    have ht : threshold g.m = 1 := by rw [hm1]; rfl
    have hr0 : r = 0 := by omega
    have h := decodeFront_short g q r rest (by rw [hb]; simp [hr0]) (by omega) hrm
    rw [if_pos (by omega), List.append_assoc, List.cons_append, h, hdm, hmap]
    simp [bitsMSB_length]
    omega
  · obtain ⟨hb, htm, htlt, hpow⟩ := threshold_facts g.m (by omega)
    by_cases hrt : r < threshold g.m
    · have h := decodeFront_short g q r rest (by omega) hrt hrm
      rw [if_pos hrt, List.append_assoc, List.cons_append, h, hdm, hmap]
      simp [bitsMSB_length]
      omega
    · have hsplit : bitsMSB (ceilLog2 g.m) (r + threshold g.m)
          = bitsMSB (ceilLog2 g.m - 1) ((r + threshold g.m) / 2)
            ++ [(r + threshold g.m).testBit 0] := by
        conv_lhs => rw [show ceilLog2 g.m = (ceilLog2 g.m - 1) + 1 by omega]
        exact bitsMSB_snoc _ _
      have hbit : ((r + threshold g.m).testBit 0).toNat = (r + threshold g.m) % 2 := by
        rw [Nat.toNat_testBit]; simp
      have hval : 2 * ((r + threshold g.m) / 2) + ((r + threshold g.m).testBit 0).toNat
          - threshold g.m = r := by
        rw [hbit]; omega
      have h := decodeFront_long g q ((r + threshold g.m) / 2) ((r + threshold g.m).testBit 0)
        rest (by omega) (by omega) (by rw [hval]; exact hrm)
      rw [if_neg hrt, hsplit, List.append_assoc, List.cons_append, List.append_assoc,
        List.singleton_append, h, hval, hdm, hmap]
      simp [bitsMSB_length]
      omega

theorem decode_zero (g : Golomb) (bits : List Bool) : g.decode bits 0 = g.decodeFront bits := by
  simp [decode]

end Golomb

/-! ## Loops -/

theorem foldlM_congr_mem {σ α : Type} (f g : σ → α → Except CodecError σ) (l : List α)
    (hfg : ∀ a ∈ l, ∀ s, f s a = g s a) (init : σ) :
    l.foldlM f init = l.foldlM g init := by
  induction l generalizing init with
  | nil => rfl
  | cons a rest ih =>
    simp only [List.foldlM_cons]
    rw [hfg a (List.mem_cons_self _ _)]
    congr 1
    funext s
    exact ih (fun b hb => hfg b (List.mem_cons_of_mem _ hb)) s

theorem forRange_succ {σ : Type} (n : Nat) (body : Nat → σ → Except CodecError σ) (init : σ) :
    forRange (n + 1) body init = (forRange n body init) >>= body n := by
  simp [forRange, List.range_succ, List.foldlM_append]

theorem forRange_zero {σ : Type} (body : Nat → σ → Except CodecError σ) (init : σ) :
    forRange 0 body init = .ok init := rfl

/-- The nested raster loop (`y` outer, `x` inner) is one loop over the raster index
`k = y * width + x`. -/
theorem forRange_nested {σ : Type} (w h : Nat) (f : Nat → Nat → σ → Except CodecError σ)
    (init : σ) :
    forRange h (fun y s => forRange w (fun x s => f x y s) s) init
      = forRange (w * h) (fun k s => f (k % w) (k / w) s) init := by
  induction h with
  | zero => simp [forRange]
  | succ h ih =>
    rw [forRange_succ, ih]
    simp only [forRange, Nat.mul_succ, List.range_add, List.foldlM_append, List.foldlM_map]
    congr 1
    funext s
    apply foldlM_congr_mem
    intro x hx s'
    have hxw : x < w := List.mem_range.1 hx
    have h1 : (w * h + x) % w = x := by
      rw [Nat.mul_add_mod]; exact Nat.mod_eq_of_lt hxw
    have h2 : (w * h + x) / w = h := by
      rw [Nat.mul_add_div (by omega), Nat.div_eq_of_lt hxw]; simp
    rw [h1, h2]

/-! ## Predictor and residual lemmas -/

theorem vectorAt_of_lt {α : Type} (v : List α) (i : Nat) (d : α) (h : i < v.length) :
    vectorAt v i = .ok (v.getD i d) := by
  simp [vectorAt, List.getD, List.getElem?_eq_getElem h]

theorem vectorAt_of_le {α : Type} (v : List α) (i : Nat) (h : v.length ≤ i) :
    vectorAt v i = .error .outOfBounds := by
  simp [vectorAt, List.getElem?_eq_none h]

theorem vectorAt_congr {α : Type} (v v' : List α) (i : Nat) (h : v[i]? = v'[i]?) :
    vectorAt v i = vectorAt v' i := by
  simp [vectorAt, h]

namespace ImageCodec

theorem pred_row_index (w x y : Nat) (hy : 0 < y) : (y - 1) * w + x + w = y * w + x := by
  obtain ⟨y', rfl⟩ : ∃ y', y = y' + 1 := ⟨y - 1, by omega⟩
  simp [Nat.succ_mul]; omega

/-- The prediction only depends on samples at raster positions before `(x, y)`. -/
theorem predictPixel_congr (predictor : Predictor) (image image' : List Nat) (w x y : Nat)
    (hx : x < w) (h : ∀ i, i < y * w + x → image[i]? = image'[i]?) :
    predictPixel predictor image w x y = predictPixel predictor image' w x y := by
  have hL : 0 < x → vectorAt image (y * w + x - 1) = vectorAt image' (y * w + x - 1) :=
    fun h0 => vectorAt_congr _ _ _ (h _ (by omega))
  have hA : 0 < y → vectorAt image ((y - 1) * w + x) = vectorAt image' ((y - 1) * w + x) :=
    fun h0 => vectorAt_congr _ _ _ (h _ (by have := pred_row_index w x y h0; omega))
  have hC : 0 < x → 0 < y →
      vectorAt image ((y - 1) * w + x - 1) = vectorAt image' ((y - 1) * w + x - 1) :=
    fun h0 h1 => vectorAt_congr _ _ _ (h _ (by have := pred_row_index w x y h1; omega))
  unfold predictPixel
  by_cases hx0 : 0 < x <;> by_cases hy0 : 0 < y <;> simp [hx0, hy0, hL, hA, hC]

/-- With every neighbour index in range, `predictPixel` returns the total prediction. -/
theorem predictPixel_eq_total (predictor : Predictor) (image : List Nat) (w x y : Nat)
    (hx : x < w) (hlen : y * w + x ≤ image.length) :
    predictPixel predictor image w x y = .ok (predictTotal predictor image w x y) := by
  have hL : 0 < x → vectorAt image (y * w + x - 1) = .ok (image.getD (y * w + x - 1) 0) :=
    fun h0 => vectorAt_of_lt _ _ _ (by omega)
  have hA : 0 < y → vectorAt image ((y - 1) * w + x) = .ok (image.getD ((y - 1) * w + x) 0) :=
    fun h0 => vectorAt_of_lt _ _ _ (by have := pred_row_index w x y h0; omega)
  have hC : 0 < x → 0 < y →
      vectorAt image ((y - 1) * w + x - 1) = .ok (image.getD ((y - 1) * w + x - 1) 0) :=
    fun h0 h1 => vectorAt_of_lt _ _ _ (by have := pred_row_index w x y h1; omega)
  unfold predictPixel predictTotal predictFrom
  by_cases hx0 : 0 < x <;> by_cases hy0 : 0 < y <;> cases predictor <;>
    simp [hx0, hy0, hL, hA, hC] <;> rfl

/-- The raster index of `(k % w, k / w)` is `k`. -/
theorem raster_index (w k : Nat) : k / w * w + k % w = k :=
  Nat.div_add_mod' k w

theorem raster_coords (w h k : Nat) (hk : k < w * h) : k % w < w ∧ k / w < h := by
  have hw : 0 < w := by
    rcases Nat.eq_zero_or_pos w with h0 | h0
    · simp [h0] at hk
    · exact h0
  exact ⟨Nat.mod_lt _ hw, Nat.div_lt_of_lt_mul hk⟩

/-- One iteration of the residual loop at raster index `k`. -/
theorem residual_step (predictor : Predictor) (image : List Nat) (w k : Nat) (hw : 0 < w)
    (hk : k < image.length) (residuals : List Int) :
    (do
      let predicted ← predictPixel predictor image w (k % w) (k / w)
      let actual ← vectorAt image (k / w * w + k % w)
      pure (residuals ++ [(actual : Int) - predicted]) : Except CodecError (List Int))
      = .ok (residuals ++ [residualAt predictor image w k]) := by
  rw [predictPixel_eq_total predictor image w _ _ (Nat.mod_lt _ hw)
    (by rw [raster_index]; omega), raster_index, vectorAt_of_lt image k 0 hk]
  rfl

/-- The first pass of `encode` succeeds on a raster with at least `w * h` samples and
yields the residuals in raster order. -/
theorem computeResiduals_eq (predictor : Predictor) (image : List Nat) (w h : Nat)
    (hlen : w * h ≤ image.length) :
    computeResiduals predictor image w h
      = .ok (residualList predictor image w h) := by
  unfold computeResiduals residualList
  rw [forRange_nested w h (fun x y residuals => do
      let predicted ← predictPixel predictor image w x y
      let actual ← vectorAt image (y * w + x)
      pure (residuals ++ [(actual : Int) - predicted]))]
  have key : ∀ k, k ≤ w * h →
      forRange k (fun k residuals => do
        let predicted ← predictPixel predictor image w (k % w) (k / w)
        let actual ← vectorAt image (k / w * w + k % w)
        pure (residuals ++ [(actual : Int) - predicted])) []
      = .ok ((List.range k).map (residualAt predictor image w)) := by
    intro k
    induction k with
    | zero => intro _; rfl
    | succ k ih =>
      intro hk
      rw [forRange_succ, ih (by omega)]
      have hw := (raster_coords w h k (by omega)).1
      have := residual_step predictor image w k (by omega) (by omega)
        ((List.range k).map (residualAt predictor image w))
      simp only [List.range_succ, List.map_append, List.map_cons, List.map_nil]
      exact this
  exact key (w * h) le_rfl

theorem calculateOptimalM_pos (fp : DoubleOps) (residuals : List Int) :
    1 ≤ calculateOptimalM fp residuals := by
  simp only [calculateOptimalM]
  split_ifs <;> simp

theorem foldl_encodeTo (coder : Golomb) (residuals : List Int) (sink : List Bool) :
    residuals.foldl (fun encoded residual => coder.encodeTo residual encoded) sink
      = sink ++ (residuals.map coder.encode).flatten := by
  induction residuals generalizing sink with
  | nil => simp
  | cons r rest ih =>
    rw [List.foldl_cons, ih, Golomb.encodeTo_eq_append]
    simp

theorem construct_of_pos (m : Nat) (mode : Golomb.NegativeMode) (hm : 1 ≤ m) :
    Golomb.construct m mode = .ok (Golomb.coderOf m mode) := by
  simp [Golomb.construct, Golomb.coderOf, show m ≠ 0 by omega]

theorem coderOf_m (m : Nat) (mode : Golomb.NegativeMode) : (Golomb.coderOf m mode).m = m := rfl

theorem headerBits_length (w h m : Nat) (predictor : Predictor) :
    (headerBits w h m predictor).length = 64 := by
  simp [headerBits, bitsMSB_length]

/-! ### 32-bit arithmetic of the source -/

theorem int32_of_range (v : Int) (h1 : -2147483648 ≤ v) (h2 : v ≤ 2147483647) :
    int32 v = v := by
  unfold int32; omega

theorem int32_natCast (n : Nat) (h : n ≤ 2147483647) : int32 (n : Int) = n :=
  int32_of_range _ (by omega) (by omega)

theorem vectorAtInt_natCast {α : Type} (v : List α) (i : Nat) :
    vectorAtInt v (i : Int) = vectorAt v i := by
  simp [vectorAtInt]

theorem pushBitsInt_natCast (count value : Nat) (sink : List Bool) :
    pushBitsInt count (value : Int) sink = pushBits count value sink := by
  induction count generalizing sink with
  | zero => rfl
  | succ n ih =>
    simp only [pushBitsInt, pushBits]
    rw [ih]
    rfl

theorem raster_lt (w h x y : Nat) (hx : x < w) (hy : y < h) : y * w + x < w * h := by
  have : (y + 1) * w ≤ h * w := Nat.mul_le_mul_right w hy
  rw [Nat.succ_mul] at this
  rw [Nat.mul_comm w h]
  omega

/-- The left index `y * width + x - 1` in 32-bit arithmetic, when the raster index fits. -/
theorem left_index32 (w x y : Nat) (hx : 0 < x) (hi : y * w + x ≤ 2147483647) :
    int32 (int32 (int32 ((y : Int) * w) + x) - 1) = ((y * w + x - 1 : Nat) : Int) := by
  have e : ((y : Int) * w) = ((y * w : Nat) : Int) := by push_cast; rfl
  rw [e]
  generalize y * w = n at hi ⊢
  rw [int32_natCast n (by omega), ← Nat.cast_add, int32_natCast (n + x) hi]
  unfold int32
  omega

/-- The index `(y - 1) * width + x` of the sample above in 32-bit arithmetic. -/
theorem above_index32 (w x y : Nat) (hw : 0 < w) (hy : 0 < y)
    (hi : y * w + x ≤ 2147483647) :
    int32 (int32 (int32 ((y : Int) - 1) * w) + x) = (((y - 1) * w + x : Nat) : Int) := by
  have hrow := pred_row_index w x y hy
  have hy1 : y - 1 ≤ (y - 1) * w := Nat.le_mul_of_pos_right (y - 1) hw
  have e1 : (y : Int) - 1 = ((y - 1 : Nat) : Int) := by omega
  have e : (((y - 1 : Nat) : Int) * w) = (((y - 1) * w : Nat) : Int) := by push_cast; rfl
  rw [e1, int32_natCast (y - 1) (by omega), e]
  generalize (y - 1) * w = n at hrow hy1 ⊢
  rw [int32_natCast n (by omega), ← Nat.cast_add, int32_natCast (n + x) (by omega)]

/-- The upper-left index `(y - 1) * width + x - 1` in 32-bit arithmetic. -/
theorem upperLeft_index32 (w x y : Nat) (hw : 0 < w) (hx : 0 < x) (hy : 0 < y)
    (hi : y * w + x ≤ 2147483647) :
    int32 (int32 (int32 (int32 ((y : Int) - 1) * w) + x) - 1)
      = (((y - 1) * w + x - 1 : Nat) : Int) := by
  rw [above_index32 w x y hw hy hi]
  have hrow := pred_row_index w x y hy
  generalize (y - 1) * w = n at hrow ⊢
  unfold int32
  omega

/-- The raster index `y * width + x` of the current sample in 32-bit arithmetic. -/
theorem raster_index32 (w x y : Nat) (hi : y * w + x ≤ 2147483647) :
    int32 (int32 ((y : Int) * w) + x) = ((y * w + x : Nat) : Int) := by
  have e : ((y : Int) * w) = ((y * w : Nat) : Int) := by push_cast; rfl
  rw [e]
  generalize y * w = n at hi ⊢
  rw [int32_natCast n (by omega), ← Nat.cast_add, int32_natCast (n + x) hi]

/-- On a pixel whose raster index fits a 32-bit `int`, the index arithmetic of the source
does not wrap: `predictPixel32` is `predictPixel`. -/
theorem predictPixel32_eq (predictor : Predictor) (image : List Nat) (w x y : Nat)
    (hx : x < w) (hi : y * w + x ≤ 2147483647) :
    predictPixel32 predictor image w x y = predictPixel predictor image w x y := by
  have hL : 0 < x →
      vectorAtInt image (int32 (int32 (int32 ((y : Int) * w) + x) - 1))
        = vectorAt image (y * w + x - 1) := by
    intro h0
    rw [left_index32 w x y h0 hi, vectorAtInt_natCast]
  have hA : 0 < y →
      vectorAtInt image (int32 (int32 (int32 ((y : Int) - 1) * w) + x))
        = vectorAt image ((y - 1) * w + x) := by
    intro h0
    rw [above_index32 w x y (by omega) h0 hi, vectorAtInt_natCast]
  have hC : 0 < x → 0 < y →
      vectorAtInt image (int32 (int32 (int32 (int32 ((y : Int) - 1) * w) + x) - 1))
        = vectorAt image ((y - 1) * w + x - 1) := by
    intro h0 h1
    rw [upperLeft_index32 w x y (by omega) h0 h1 hi, vectorAtInt_natCast]
  unfold predictPixel32 predictPixel
  by_cases hx0 : 0 < x <;> by_cases hy0 : 0 < y <;> simp [hx0, hy0, hL, hA, hC]

/-- On a raster of at most `2^31 - 1` samples the first pass of `encode` computes its
indices without wrap-around: `computeResiduals32` is `computeResiduals`. -/
theorem computeResiduals32_eq (predictor : Predictor) (image : List Nat) (w h : Nat)
    (hsize : w * h ≤ 2147483647) :
    computeResiduals32 predictor image w h = computeResiduals predictor image w h := by
  unfold computeResiduals32 computeResiduals forRange
  rw [Int.toNat_ofNat, Int.toNat_ofNat]
  apply foldlM_congr_mem
  intro y hy residuals
  apply foldlM_congr_mem
  intro x hx residuals
  have hxw := List.mem_range.1 hx
  have hi : y * w + x ≤ 2147483647 := by
    have := raster_lt w h x y hxw (List.mem_range.1 hy)
    omega
  dsimp only
  rw [predictPixel32_eq predictor image w x y hxw hi, raster_index32 w x y hi,
    vectorAtInt_natCast]

theorem reserve_natCast (n : Nat) : reserve (n : Int) = .ok () := by
  simp [reserve]

/-- Shape of the frame, for non-negative dimensions with `w * h * 8` inside the 32-bit
range: the header, then the codewords of the residuals in raster order. -/
theorem encode_eq_frame (fp : DoubleOps) (predictor : Predictor) (image : List Nat)
    (w h : Nat) (hlen : w * h ≤ image.length) (hsize : w * h * 8 ≤ 2147483647) :
    encode fp predictor image w h
      = .ok (headerBits w h (calculateOptimalM fp (residualList predictor image w h)) predictor
          ++ ((residualList predictor image w h).map
              (Golomb.coderOf (calculateOptimalM fp (residualList predictor image w h))
                Golomb.defaultMode).encode).flatten) := by
  have e : ((w : Int) * h) = ((w * h : Nat) : Int) := by push_cast; rfl
  have e8 : int32 (((w * h : Nat) : Int) * 8) = ((w * h * 8 : Nat) : Int) := by
    rw [show (((w * h : Nat) : Int) * 8) = ((w * h * 8 : Nat) : Int) by push_cast; rfl]
    exact int32_natCast _ hsize
  unfold encode
  rw [computeResiduals32_eq predictor image w h (by omega),
    computeResiduals_eq predictor image w h hlen, e, int32_natCast _ (by omega), e8,
    reserve_natCast, reserve_natCast]
  simp only [bind, Except.bind]
  rw [construct_of_pos _ _ (calculateOptimalM_pos fp _)]
  simp only [pure, Except.pure, foldl_encodeTo, pushBits_eq_append, headerBits,
    List.nil_append, pushBitsInt_natCast]

theorem readStoredM_loop (encoded : List Bool) (cnt s acc : Nat)
    (h : s + cnt ≤ encoded.length) :
    (List.range' s cnt).foldlM
      (fun storedM i => do
        let bit ← vectorAt encoded i
        pure ((storedM <<< 1) ||| bit.toNat)) acc
      = (.ok (((encoded.drop s).take cnt).foldl
          (fun acc bit => (acc <<< 1) ||| bit.toNat) acc) : Except CodecError Nat) := by
  induction cnt generalizing s acc with
  | zero => simp; rfl
  | succ cnt ih =>
    have hs : s < encoded.length := by omega
    rw [List.range'_succ, List.foldlM_cons, vectorAt_of_lt encoded s false hs]
    simp only [bind, Except.bind, pure, Except.pure]
    have := ih (s + 1) (acc <<< 1 ||| (encoded.getD s false).toNat) (by omega)
    simp only [bind, Except.bind, pure, Except.pure] at this
    rw [this, List.drop_eq_getElem_cons hs, List.take_succ_cons, List.foldl_cons]
    simp [List.getD, List.getElem?_eq_getElem hs]

/-- On a sequence of at least 48 bits the header read returns the value of bits 32..47. -/
theorem readStoredM_eq (encoded : List Bool) (h : 48 ≤ encoded.length) :
    readStoredM encoded = .ok (readMSB ((encoded.drop 32).take 16)) :=
  readStoredM_loop encoded 16 32 0 (by omega)

theorem readStoredM_header (w h m : Nat) (predictor : Predictor) (body : List Bool) :
    readStoredM (headerBits w h m predictor ++ body) = .ok (m % 65536) := by
  rw [readStoredM_eq _ (by rw [List.length_append, headerBits_length]; omega)]
  have : ((headerBits w h m predictor ++ body).drop 32).take 16 = bitsMSB 16 m := by
    have e : headerBits w h m predictor ++ body
        = (bitsMSB 16 w ++ bitsMSB 16 h) ++ (bitsMSB 16 m ++
            (bitsMSB 4 predictor.toNat ++ List.replicate 12 false ++ body)) := by
      simp [headerBits]
    rw [e, List.drop_left' (by simp [bitsMSB_length]),
      List.take_left' (bitsMSB_length 16 m)]
  rw [this, readMSB_bitsMSB]
  norm_num

theorem clamp_sample (v : Nat) (h : v ≤ 255) : (max 0 (min 255 (v : Int))).toNat = v := by
  have h1 : min 255 (v : Int) = v := min_eq_right (by omega)
  have h2 : max 0 (v : Int) = v := max_eq_right (by omega)
  rw [h1, h2]
  simp

/-- One iteration of the reconstruction loop at raster index `k`, when the raster under
reconstruction agrees with `image` before `k` and the bits at `pos` start with the
codeword of the residual of `image` at `k`. -/
theorem decodePixel_step (predictor : Predictor) (coder : Golomb) (hm : 1 ≤ coder.m)
    (encoded : List Bool) (image buf : List Nat) (w k pos : Nat) (rest : List Bool)
    (hw : 0 < w) (hk : k < image.length) (h8 : image.getD k 0 ≤ 255)
    (hagree : ∀ i, i < k → buf[i]? = image[i]?)
    (hbits : encoded.drop pos = coder.encode (residualAt predictor image w k) ++ rest) :
    decodePixel predictor coder encoded w (k % w) (k / w) (buf, pos)
      = .ok (buf.set k (image.getD k 0),
          pos + (coder.encode (residualAt predictor image w k)).length) := by
  have hpred : predictPixel predictor buf w (k % w) (k / w)
      = .ok (predictTotal predictor image w (k % w) (k / w)) := by
    rw [predictPixel_congr predictor buf image w _ _ (Nat.mod_lt _ hw)
      (by rw [raster_index]; exact hagree)]
    exact predictPixel_eq_total predictor image w _ _ (Nat.mod_lt _ hw)
      (by rw [raster_index]; omega)
  have hsum : predictTotal predictor image w (k % w) (k / w) + residualAt predictor image w k
      = (image.getD k 0 : Int) := by
    unfold residualAt; ring
  simp only [decodePixel, Golomb.decode, hbits, Golomb.decodeFront_encode_append coder hm,
    hpred, bind, Except.bind, pure, Except.pure, hsum, clamp_sample _ h8, raster_index]

theorem drop_codewords {α : Type} (f : α → List Bool) (hdr : List Bool) (rs : List α)
    (k : Nat) (hk : k < rs.length) :
    (hdr ++ (rs.map f).flatten).drop (hdr.length + ((rs.take k).map f).flatten.length)
      = f rs[k] ++ ((rs.drop (k + 1)).map f).flatten := by
  have hsplit : rs = rs.take k ++ rs[k] :: rs.drop (k + 1) := by
    rw [← List.drop_eq_getElem_cons hk, List.take_append_drop]
  have e : hdr ++ (rs.map f).flatten
      = (hdr ++ ((rs.take k).map f).flatten) ++ (f rs[k] ++ ((rs.drop (k + 1)).map f).flatten) := by
    have : (rs.map f).flatten
        = ((rs.take k).map f).flatten ++ (f rs[k] ++ ((rs.drop (k + 1)).map f).flatten) := by
      conv_lhs => rw [hsplit]
      rw [List.map_append, List.flatten_append, List.map_cons, List.flatten_cons]
    rw [this, List.append_assoc]
  rw [e]
  exact List.drop_left' (by rw [List.length_append])

theorem length_codewords_succ {α : Type} (f : α → List Bool) (rs : List α)
    (k : Nat) (hk : k < rs.length) :
    ((rs.take (k + 1)).map f).flatten.length
      = ((rs.take k).map f).flatten.length + (f rs[k]).length := by
  rw [List.take_succ, List.getElem?_eq_getElem hk]
  simp only [Option.toList, List.map_append, List.flatten_append, List.length_append,
    List.map_cons, List.map_nil, List.flatten_cons, List.flatten_nil, List.append_nil]

theorem residualList_length (predictor : Predictor) (image : List Nat) (w h : Nat) :
    (residualList predictor image w h).length = w * h := by
  simp [residualList]

theorem residualList_getElem (predictor : Predictor) (image : List Nat) (w h k : Nat)
    (hk : k < (residualList predictor image w h).length) :
    (residualList predictor image w h)[k] = residualAt predictor image w k := by
  simp [residualList]

/-- The reconstruction loop on a frame body made of the codewords of the residuals of an
8-bit raster rebuilds that raster and stops right after the last codeword. -/
theorem decodePixels_frame (predictor : Predictor) (coder : Golomb) (hm : 1 ≤ coder.m)
    (image : List Nat) (w h : Nat) (hlen : image.length = w * h)
    (h8 : ∀ p ∈ image, p ≤ 255) (hdr : List Bool) (hhdr : hdr.length = 64) :
    decodePixels predictor coder
        (hdr ++ ((residualList predictor image w h).map coder.encode).flatten) w h
        (List.replicate (w * h) 0, 64)
      = .ok (image,
          64 + ((residualList predictor image w h).map coder.encode).flatten.length) := by
  unfold decodePixels
  rw [forRange_nested w h (fun x y state =>
    decodePixel predictor coder
      (hdr ++ ((residualList predictor image w h).map coder.encode).flatten) w x y state)]
  have key : ∀ k, k ≤ w * h → ∃ buf,
      forRange k (fun k state => decodePixel predictor coder
          (hdr ++ ((residualList predictor image w h).map coder.encode).flatten) w
          (k % w) (k / w) state) (List.replicate (w * h) 0, 64)
        = .ok (buf, 64 + (((residualList predictor image w h).take k).map
            coder.encode).flatten.length)
      ∧ buf.length = w * h ∧ ∀ i, i < k → buf[i]? = image[i]? := by
    intro k
    induction k with
    | zero =>
      intro _
      exact ⟨List.replicate (w * h) 0, rfl, by simp, by intro i hi; omega⟩
    | succ k ih =>
      intro hk
      obtain ⟨buf, hloop, hbl, hag⟩ := ih (by omega)
      have hkr : k < (residualList predictor image w h).length := by
        rw [residualList_length]; omega
      have hw := (raster_coords w h k (by omega)).1
      have hki : k < image.length := by omega
      have h8k : image.getD k 0 ≤ 255 := by
        apply h8
        simp [List.getD, List.getElem?_eq_getElem hki]
      have hbits := drop_codewords coder.encode hdr (residualList predictor image w h) k hkr
      rw [hhdr, residualList_getElem] at hbits
      have hstep := decodePixel_step predictor coder hm _ image buf w k _ _ (by omega) hki h8k
        hag hbits
      refine ⟨buf.set k (image.getD k 0), ?_, by simp [hbl], ?_⟩
      · rw [forRange_succ, hloop]
        simp only [bind, Except.bind]
        rw [hstep, length_codewords_succ _ _ _ hkr, residualList_getElem]
        simp [Nat.add_assoc]
      · intro i hi
        rw [List.getElem?_set]
        by_cases hik : k = i
        · subst hik
          simp [hbl, ← hlen, hki, List.getD, List.getElem?_eq_getElem hki]
        · rw [if_neg hik]
          exact hag i (by omega)
  obtain ⟨buf, hloop, hbl, hag⟩ := key (w * h) le_rfl
  have hbuf : buf = image := by
    apply List.ext_getElem?
    intro i
    by_cases hi : i < w * h
    · exact hag i hi
    · rw [List.getElem?_eq_none (by omega), List.getElem?_eq_none (by omega)]
  rw [hloop, hbuf, List.take_of_length_le (by rw [residualList_length])]

/-- Decoding a frame whose body holds the codewords, under a divisor that fits the header
field, of the residuals of an 8-bit raster gives the raster back. -/
theorem decode_frame (predictor : Predictor) (image : List Nat) (w h m w' h' : Nat)
    (predictor' : Predictor) (hm1 : 1 ≤ m) (hm2 : m < 65536)
    (hlen : image.length = w * h) (h8 : ∀ p ∈ image, p ≤ 255) :
    decode predictor
        (headerBits w' h' m predictor' ++ ((residualList predictor image w h).map
          (Golomb.coderOf m Golomb.defaultMode).encode).flatten) w h
      = .ok image := by
  unfold decode
  rw [readStoredM_header, Nat.mod_eq_of_lt hm2]
  simp only [bind, Except.bind]
  rw [construct_of_pos _ _ hm1]
  simp only []
  rw [decodePixels_frame predictor _ (by rw [coderOf_m]; exact hm1) image w h hlen h8 _
    (headerBits_length _ _ _ _)]
  rfl

end ImageCodec

/-! ## Error kinds and dependence on the input -/

theorem Outcome.bind {σ τ : Type} {P : σ → Prop} {Q : τ → Prop} {E : CodecError → Prop}
    {r : Except CodecError σ} {f : σ → Except CodecError τ}
    (hr : Outcome P E r) (hf : ∀ s, P s → Outcome Q E (f s)) : Outcome Q E (r >>= f) := by
  cases r with
  | error e => exact hr
  | ok s => exact hf s hr

theorem Outcome.mono {σ : Type} {P P' : σ → Prop} {E E' : CodecError → Prop}
    {r : Except CodecError σ} (hr : Outcome P E r) (hP : ∀ s, P s → P' s)
    (hE : ∀ e, E e → E' e) : Outcome P' E' r := by
  cases r with
  | error e => exact hE e hr
  | ok s => exact hP s hr

/-- Loop rule: an invariant of the state and a bound on the error kinds carry over from
the body to the loop. -/
theorem forRange_outcome {σ : Type} (n : Nat) (body : Nat → σ → Except CodecError σ)
    (init : σ) (P : σ → Prop) (E : CodecError → Prop) (hinit : P init)
    (hbody : ∀ i, i < n → ∀ s, P s → Outcome P E (body i s)) :
    Outcome P E (forRange n body init) := by
  induction n with
  | zero => exact hinit
  | succ n ih =>
    rw [forRange_succ]
    exact Outcome.bind (ih (fun i hi => hbody i (by omega))) (fun s hs => hbody n (by omega) s hs)

theorem vectorAt_outcome {α : Type} (v : List α) (i : Nat) :
    Outcome (fun _ => True) (fun e => e = .outOfBounds) (vectorAt v i) := by
  unfold vectorAt
  cases v[i]? <;> simp [Outcome]

namespace ImageCodec

theorem vectorAt_cases {α : Type} (v : List α) (i : Nat) :
    vectorAt v i = .error .outOfBounds ∨ ∃ a, vectorAt v i = .ok a := by
  unfold vectorAt
  cases v[i]? with
  | none => exact Or.inl rfl
  | some a => exact Or.inr ⟨a, rfl⟩

theorem predictPixel_outcome (predictor : Predictor) (image : List Nat) (w x y : Nat) :
    Outcome (fun _ => True) (fun e => e = .outOfBounds) (predictPixel predictor image w x y) := by
  unfold predictPixel
  rcases vectorAt_cases image (y * w + x - 1) with h1 | ⟨a1, h1⟩ <;>
  rcases vectorAt_cases image ((y - 1) * w + x) with h2 | ⟨a2, h2⟩ <;>
  rcases vectorAt_cases image ((y - 1) * w + x - 1) with h3 | ⟨a3, h3⟩ <;>
  by_cases hx0 : 0 < x <;> by_cases hy0 : 0 < y <;> cases predictor <;>
  simp [h1, h2, h3, hx0, hy0, Outcome, bind, Except.bind, pure, Except.pure]

/-- The first pass of `encode` can only fail by reading outside the raster. -/
theorem computeResiduals_outcome (predictor : Predictor) (image : List Nat) (w h : Nat) :
    Outcome (fun _ => True) (fun e => e = .outOfBounds)
      (computeResiduals predictor image w h) := by
  unfold computeResiduals
  apply forRange_outcome _ _ _ _ _ trivial
  intro y _ s _
  apply forRange_outcome _ _ _ _ _ trivial
  intro x _ s _
  refine Outcome.bind (predictPixel_outcome predictor image w x y) (fun p _ => ?_)
  exact Outcome.bind (vectorAt_outcome image _) (fun a _ => trivial)

theorem vectorAtInt_outcome {α : Type} (v : List α) (i : Int) :
    Outcome (fun _ => True) (fun e => e = .outOfBounds) (vectorAtInt v i) := by
  unfold vectorAtInt
  split_ifs
  · exact rfl
  · exact vectorAt_outcome v _

theorem vectorAtInt_cases {α : Type} (v : List α) (i : Int) :
    vectorAtInt v i = .error .outOfBounds ∨ ∃ a, vectorAtInt v i = .ok a := by
  unfold vectorAtInt
  split_ifs
  · exact Or.inl rfl
  · exact vectorAt_cases v _

theorem predictPixel32_outcome (predictor : Predictor) (image : List Nat) (w x y : Int) :
    Outcome (fun _ => True) (fun e => e = .outOfBounds)
      (predictPixel32 predictor image w x y) := by
  unfold predictPixel32
  generalize int32 (int32 (int32 (y * w) + x) - 1) = i1
  generalize int32 (int32 (int32 (y - 1) * w) + x) = i2
  generalize int32 (i2 - 1) = i3
  rcases vectorAtInt_cases image i1 with h1 | ⟨a1, h1⟩ <;>
  rcases vectorAtInt_cases image i2 with h2 | ⟨a2, h2⟩ <;>
  rcases vectorAtInt_cases image i3 with h3 | ⟨a3, h3⟩ <;>
  by_cases hx0 : 0 < x <;> by_cases hy0 : 0 < y <;> cases predictor <;>
  simp [h1, h2, h3, hx0, hy0, Outcome, bind, Except.bind, pure, Except.pure]

/-- The first pass of `encode` can only fail by reading outside the raster. -/
theorem computeResiduals32_outcome (predictor : Predictor) (image : List Nat)
    (width height : Int) :
    Outcome (fun _ => True) (fun e => e = .outOfBounds)
      (computeResiduals32 predictor image width height) := by
  unfold computeResiduals32
  apply forRange_outcome _ _ _ _ _ trivial
  intro y _ s _
  apply forRange_outcome _ _ _ _ _ trivial
  intro x _ s _
  refine Outcome.bind (predictPixel32_outcome predictor image width x y) (fun p _ => ?_)
  exact Outcome.bind (vectorAtInt_outcome image _) (fun a _ => trivial)

theorem reserve_outcome (n : Int) :
    Outcome (fun _ => True) (fun e => e = .lengthError) (reserve n) := by
  unfold reserve
  split_ifs
  · exact rfl
  · trivial

/-- The only failures of `encode` are a `reserve` that throws and an access outside the
raster. -/
theorem encode_outcome (fp : DoubleOps) (predictor : Predictor) (image : List Nat)
    (width height : Int) :
    Outcome (fun _ => True) (fun e => e = .outOfBounds ∨ e = .lengthError)
      (encode fp predictor image width height) := by
  unfold encode
  refine Outcome.bind (Q := fun _ => True)
    (Outcome.mono (reserve_outcome _) (fun _ h => h) (fun e he => Or.inr he)) (fun _ _ => ?_)
  refine Outcome.bind
    (Outcome.mono (computeResiduals32_outcome predictor image width height) (fun _ h => h)
      (fun e he => Or.inl he)) (fun rs _ => ?_)
  dsimp only
  rw [construct_of_pos _ _ (calculateOptimalM_pos fp rs)]
  refine Outcome.bind (P := fun _ => True) (Q := fun _ => True) True.intro (fun coder _ => ?_)
  exact Outcome.bind (Q := fun _ => True)
    (Outcome.mono (reserve_outcome _) (fun _ h => h) (fun e he => Or.inr he))
    (fun _ _ => True.intro)

theorem getD_take (image : List Nat) (n k : Nat) (hk : k < n) :
    (image.take n).getD k 0 = image.getD k 0 := by
  simp [List.getD, List.getElem?_take, hk]

theorem residualList_take (predictor : Predictor) (image : List Nat) (w h : Nat)
    (hlen : w * h ≤ image.length) :
    residualList predictor (image.take (w * h)) w h = residualList predictor image w h := by
  unfold residualList
  apply List.map_congr_left
  intro k hk
  have hk' : k < w * h := List.mem_range.1 hk
  have hw := (raster_coords w h k hk').1
  have hcongr := predictPixel_congr predictor (image.take (w * h)) image w (k % w) (k / w) hw
    (by
      intro i hi
      rw [raster_index] at hi
      rw [List.getElem?_take, if_pos (by omega)])
  rw [predictPixel_eq_total predictor _ w _ _ hw
      (by rw [raster_index, List.length_take]; omega),
    predictPixel_eq_total predictor image w _ _ hw (by rw [raster_index]; omega)] at hcongr
  unfold residualAt
  rw [getD_take image _ _ hk', Except.ok.inj hcongr]

end ImageCodec

/-! ## Which bits `decode` depends on -/

theorem forRange_congr_inv {σ : Type} (n : Nat) (body body' : Nat → σ → Except CodecError σ)
    (init : σ) (P : σ → Prop) (hinit : P init)
    (hpres : ∀ i, i < n → ∀ s, P s → Outcome P (fun _ => True) (body i s))
    (heq : ∀ i, i < n → ∀ s, P s → body i s = body' i s) :
    forRange n body init = forRange n body' init := by
  induction n with
  | zero => rfl
  | succ n ih =>
    have hP := forRange_outcome n body init P (fun _ => True) hinit
      (fun i hi => hpres i (by omega))
    rw [forRange_succ, forRange_succ,
      ← ih (fun i hi => hpres i (by omega)) (fun i hi => heq i (by omega))]
    cases hr : forRange n body init with
    | error e => rfl
    | ok s =>
      rw [hr] at hP
      exact heq n (by omega) s hP

theorem drop_congr {α : Type} (l l' : List α) (pos : Nat)
    (h : ∀ i, pos ≤ i → l[i]? = l'[i]?) : l.drop pos = l'.drop pos := by
  apply List.ext_getElem?
  intro i
  rw [List.getElem?_drop, List.getElem?_drop]
  exact h _ (by omega)

namespace ImageCodec

theorem readStoredM_congr (bits bits' : List Bool)
    (h : ∀ i, 32 ≤ i → i < 48 → bits[i]? = bits'[i]?) :
    readStoredM bits = readStoredM bits' := by
  unfold readStoredM
  apply foldlM_congr_mem
  intro i hi s
  rw [List.mem_range'_1] at hi
  rw [vectorAt_congr bits bits' i (h i hi.1 (by omega))]

theorem decodePixel_eq (predictor : Predictor) (coder : Golomb) (bits : List Bool)
    (w x y : Nat) (buf : List Nat) (pos : Nat) :
    decodePixel predictor coder bits w x y (buf, pos)
      = (coder.decode bits pos >>= fun result =>
          predictPixel predictor buf w x y >>= fun predicted =>
            .ok (buf.set (y * w + x) (max 0 (min 255 (predicted + result.value))).toNat,
              pos + result.bitsConsumed)) := rfl

theorem decodePixel_position (predictor : Predictor) (coder : Golomb) (bits : List Bool)
    (w x y : Nat) (s : List Nat × Nat) (lo : Nat) (hs : lo ≤ s.2) :
    Outcome (fun s' : List Nat × Nat => lo ≤ s'.2) (fun _ => True)
      (decodePixel predictor coder bits w x y s) := by
  obtain ⟨buf, pos⟩ := s
  rw [decodePixel_eq]
  refine Outcome.bind (P := fun _ => True) ?_ (fun r _ => ?_)
  · cases coder.decode bits pos <;> trivial
  refine Outcome.bind (P := fun _ => True) ?_ (fun p _ => ?_)
  · cases predictPixel predictor buf w x y <;> trivial
  show lo ≤ pos + r.bitsConsumed
  have : lo ≤ pos := hs
  omega

theorem decodePixel_congr (predictor : Predictor) (coder : Golomb) (bits bits' : List Bool)
    (w x y : Nat) (s : List Nat × Nat) (lo : Nat) (hs : lo ≤ s.2)
    (h : ∀ i, lo ≤ i → bits[i]? = bits'[i]?) :
    decodePixel predictor coder bits w x y s = decodePixel predictor coder bits' w x y s := by
  obtain ⟨buf, pos⟩ := s
  rw [decodePixel_eq, decodePixel_eq]
  unfold Golomb.decode
  rw [drop_congr bits bits' pos (fun i hi => h i (le_trans hs hi))]

theorem decodePixels_congr (predictor : Predictor) (coder : Golomb) (bits bits' : List Bool)
    (w h : Nat) (s : List Nat × Nat) (lo : Nat) (hs : lo ≤ s.2)
    (hb : ∀ i, lo ≤ i → bits[i]? = bits'[i]?) :
    decodePixels predictor coder bits w h s = decodePixels predictor coder bits' w h s := by
  unfold decodePixels
  apply forRange_congr_inv h _ _ s (fun s => lo ≤ s.2) hs
  · intro y _ s hs
    exact forRange_outcome w _ s _ _ hs
      (fun x _ s hs => decodePixel_position predictor coder bits w x y s lo hs)
  · intro y _ s hs
    apply forRange_congr_inv w _ _ s (fun s => lo ≤ s.2) hs
    · exact fun x _ s hs => decodePixel_position predictor coder bits w x y s lo hs
    · exact fun x _ s hs => decodePixel_congr predictor coder bits bits' w x y s lo hs hb

/-- The result of `decode` depends only on bits 32..47 and on the bits from 64 on. -/
theorem decode_congr (predictor : Predictor) (bits bits' : List Bool) (w h : Nat)
    (h1 : ∀ i, 32 ≤ i → i < 48 → bits[i]? = bits'[i]?)
    (h2 : ∀ i, 64 ≤ i → bits[i]? = bits'[i]?) :
    decode predictor bits w h = decode predictor bits' w h := by
  have hloop : ∀ coder, decodePixels predictor coder bits w h (List.replicate (w * h) 0, 64)
      = decodePixels predictor coder bits' w h (List.replicate (w * h) 0, 64) :=
    fun coder => decodePixels_congr predictor coder bits bits' w h _ 64 le_rfl h2
  unfold decode
  simp only [readStoredM_congr bits bits' h1, hloop]

end ImageCodec

/-! ## Truncated streams -/

namespace Golomb

end Golomb

namespace ImageCodec

end ImageCodec

/-! ## The divisor estimate in exact arithmetic -/

theorem pow_succ_add_le (S n N : Nat) : S ^ (N + 1) + (N + 1) * n * S ^ N ≤ (S + n) ^ (N + 1) := by
  induction N with
  | zero => simp
  | succ N ih =>
    have h1 : (S + n) ^ (N + 2) = (S + n) * (S + n) ^ (N + 1) := by ring
    have h2 : (S + n) * (S ^ (N + 1) + (N + 1) * n * S ^ N) ≤ (S + n) * (S + n) ^ (N + 1) :=
      Nat.mul_le_mul_left _ ih
    have h3 : S ^ (N + 1 + 1) + (N + 1 + 1) * n * S ^ (N + 1)
        ≤ (S + n) * (S ^ (N + 1) + (N + 1) * n * S ^ N) := by
      have e : (S + n) * (S ^ (N + 1) + (N + 1) * n * S ^ N)
          = S ^ (N + 1 + 1) + (N + 1 + 1) * n * S ^ (N + 1) + (N + 1) * n * n * S ^ N := by
        ring
      rw [e]
      exact Nat.le_add_right _ _
    rw [show N + 1 + 1 = N + 2 by rfl] at h3
    rw [h1]
    exact le_trans h3 h2

theorem exact_condition (S n K : Nat) (hS : 0 < S) (hK : 3 * S < (2 * K + 1) * n) :
    4 * S ^ (2 * K + 1) < (S + n) ^ (2 * K + 1) := by
  have hb := pow_succ_add_le S n (2 * K)
  have hpos : 0 < S ^ (2 * K) := Nat.pos_pow_of_pos _ hS
  have hlt : 3 * S * S ^ (2 * K) < (2 * K + 1) * n * S ^ (2 * K) :=
    Nat.mul_lt_mul_of_pos_right hK hpos
  have e : 3 * S * S ^ (2 * K) = 3 * S ^ (2 * K + 1) := by ring
  rw [e] at hlt
  omega

theorem exactSearch_le (S n fuel k K : Nat) (hk : k ≤ K)
    (hK : 4 * S ^ (2 * K + 1) < (S + n) ^ (2 * K + 1)) :
    DoubleOps.exactSearch S n fuel k ≤ K := by
  induction fuel generalizing k with
  | zero => exact hk
  | succ fuel ih =>
    unfold DoubleOps.exactSearch
    split
    · exact hk
    · rename_i hc
      apply ih
      rcases Nat.lt_or_eq_of_le hk with h | h
      · omega
      · subst h
        exact absurd hK hc

theorem foldl_natAbs_le (rs : List Int) (bound acc : Nat) (h : ∀ r ∈ rs, r.natAbs ≤ bound) :
    rs.foldl (fun sum residual => sum + residual.natAbs) acc ≤ acc + bound * rs.length := by
  induction rs generalizing acc with
  | nil => simp
  | cons r rest ih =>
    rw [List.foldl_cons]
    have h1 := ih (acc + r.natAbs) (fun x hx => h x (List.mem_cons_of_mem _ hx))
    have h2 := h r (List.mem_cons_self _ _)
    rw [List.length_cons, Nat.mul_succ]
    omega

namespace ImageCodec

/-- In exact arithmetic the divisor estimated from residuals of magnitude at most 510 is
at most 765. -/
theorem calculateOptimalM_exact_le (rs : List Int) (h : ∀ r ∈ rs, r.natAbs ≤ 510) :
    calculateOptimalM DoubleOps.exact rs ≤ 765 := by
  simp only [calculateOptimalM]
  split_ifs with h1 h2
  · omega
  · omega
  · have hsum := foldl_natAbs_le rs 510 0 h
    simp only [DoubleOps.exact, decide_eq_true_eq, not_lt] at h2
    have hlen : 0 < rs.length := by
      cases rs with
      | nil => simp at h1
      | cons r rest => simp
    generalize rs.foldl (fun sum residual => sum + residual.natAbs) 0 = S at hsum h2
    have hS : 0 < S := by
      rcases Nat.eq_zero_or_pos S with h0 | h0
      · subst h0; omega
      · exact h0
    have hle := exactSearch_le S rs.length (S + 1) 0 765 (by omega)
      (exact_condition S rs.length 765 hS (by omega))
    simp only [DoubleOps.exact]
    omega

theorem getD_le_255 (image : List Nat) (h8 : ∀ p ∈ image, p ≤ 255) (i : Nat) :
    image.getD i 0 ≤ 255 := by
  rw [List.getD_eq_getElem?_getD]
  cases hi : image[i]? with
  | none => simp
  | some v => exact h8 v (List.getElem?_mem hi)

theorem tdiv_two_bounds (x : Int) (lo hi : Int) (h1 : -(2 * lo) ≤ x) (h2 : x ≤ 2 * hi) :
    -lo ≤ x.tdiv 2 ∧ x.tdiv 2 ≤ hi := by
  rcases le_or_lt 0 x with h | h
  · rw [Int.tdiv_eq_ediv h (by norm_num)]; omega
  · have e : x.tdiv 2 = -((-x).tdiv 2) := by rw [Int.neg_tdiv]; simp
    rw [e, Int.tdiv_eq_ediv (by omega) (by norm_num)]; omega

theorem predictFrom_bounds (predictor : Predictor) (L A C : Int)
    (hL : 0 ≤ L ∧ L ≤ 255) (hA : 0 ≤ A ∧ A ≤ 255) (hC : 0 ≤ C ∧ C ≤ 255) :
    -255 ≤ predictFrom predictor L A C ∧ predictFrom predictor L A C ≤ 510 := by
  cases predictor <;> simp only [predictFrom]
  · omega
  · omega
  · have := tdiv_two_bounds (L + A) 0 255 (by omega) (by omega)
    omega
  · simp only [paethPredictor]
    split_ifs <;> omega
  · omega
  · have := tdiv_two_bounds (A - C) 128 128 (by omega) (by omega)
    omega

theorem sample_or_zero_bounds (image : List Nat) (h8 : ∀ p ∈ image, p ≤ 255) (c : Prop)
    [Decidable c] (i : Nat) :
    0 ≤ (if c then (image.getD i 0 : Int) else 0) ∧
      (if c then (image.getD i 0 : Int) else 0) ≤ 255 := by
  have hg := getD_le_255 image h8 i
  split_ifs <;> omega

/-- The residuals of an 8-bit raster have magnitude at most 510. -/
theorem residualAt_natAbs_le (predictor : Predictor) (image : List Nat) (w k : Nat)
    (h8 : ∀ p ∈ image, p ≤ 255) : (residualAt predictor image w k).natAbs ≤ 510 := by
  have hb := predictFrom_bounds predictor
    (if 0 < k % w then (image.getD (k / w * w + k % w - 1) 0 : Int) else 0)
    (if 0 < k / w then (image.getD ((k / w - 1) * w + k % w) 0 : Int) else 0)
    (if 0 < k % w ∧ 0 < k / w then (image.getD ((k / w - 1) * w + k % w - 1) 0 : Int) else 0)
    (sample_or_zero_bounds image h8 _ _) (sample_or_zero_bounds image h8 _ _)
    (sample_or_zero_bounds image h8 _ _)
  have hk := getD_le_255 image h8 k
  unfold residualAt predictTotal
  omega

/-- In exact arithmetic the divisor estimated for an 8-bit raster fits the 16-bit header
field. -/
theorem exact_divisor_fits_header (predictor : Predictor) (image : List Nat) (w h : Nat)
    (h8 : ∀ p ∈ image, p ≤ 255) :
    calculateOptimalM DoubleOps.exact (residualList predictor image w h) < 65536 := by
  have := calculateOptimalM_exact_le (residualList predictor image w h) (by
    intro r hr
    simp only [residualList, List.mem_map] at hr
    obtain ⟨k, _, rfl⟩ := hr
    exact residualAt_natAbs_le predictor image w k h8)
  omega

end ImageCodec

/-! ## Results -/

open ImageCodec

/-- C2. Golomb round trip: for every divisor `m ≥ 1`, every mode and every signed integer
`v` (in particular every `v` in `[-10^6, 10^6]`), a coder constructed with `m` decodes
`encode v` from position 0 to the value `v`, with `bitsConsumed` the length of
`encode v`. -/
theorem golomb_round_trip (m : Nat) (mode : Golomb.NegativeMode) (v : Int) (hm : 1 ≤ m) :
    ∃ g, Golomb.construct m mode = .ok g ∧
      g.decode (g.encode v) 0 = .ok { value := v, bitsConsumed := (g.encode v).length } := by
  refine ⟨_, construct_of_pos m mode hm, ?_⟩
  have h := Golomb.decodeFront_encode_append (Golomb.coderOf m mode)
    (by rw [coderOf_m]; exact hm) v []
  rw [List.append_nil] at h
  rw [Golomb.decode_zero, h]

theorem golomb_round_trip_witness :
    ∃ g, Golomb.construct 5 .SIGN_MAGNITUDE = .ok g ∧
      g.decode (g.encode (-7)) 0
        = .ok { value := -7, bitsConsumed := (g.encode (-7)).length } :=
  golomb_round_trip 5 .SIGN_MAGNITUDE (-7) (by decide)

namespace ImageCodec

/-- When none of its 32-bit operations overflows, `paethPredictor` computes the PAETH rule
over the integers. -/
theorem paethPredictor_eq_exact (a b c : Int)
    (hsum : -2147483648 ≤ a + b ∧ a + b ≤ 2147483647)
    (hp : -2147483648 ≤ a + b - c ∧ a + b - c ≤ 2147483647)
    (hpa : -2147483647 ≤ b - c ∧ b - c ≤ 2147483647)
    (hpb : -2147483647 ≤ a - c ∧ a - c ≤ 2147483647)
    (hpc : -2147483647 ≤ a + b - 2 * c ∧ a + b - 2 * c ≤ 2147483647) :
    paethPredictor a b c = paethExact a b c := by
  have e1 : int32 (int32 (a + b) - c) = a + b - c := by
    rw [int32_of_range (a + b) hsum.1 hsum.2, int32_of_range _ hp.1 hp.2]
  have ea : int32 ((int32 (a + b - c - a)).natAbs : Int) = ((b - c).natAbs : Int) := by
    rw [int32_of_range (a + b - c - a) (by omega) (by omega),
      int32_of_range _ (by omega) (by omega)]
    omega
  have eb : int32 ((int32 (a + b - c - b)).natAbs : Int) = ((a - c).natAbs : Int) := by
    rw [int32_of_range (a + b - c - b) (by omega) (by omega),
      int32_of_range _ (by omega) (by omega)]
    omega
  have ec : int32 ((int32 (a + b - c - c)).natAbs : Int) = ((a + b - 2 * c).natAbs : Int) := by
    rw [int32_of_range (a + b - c - c) (by omega) (by omega),
      int32_of_range _ (by omega) (by omega)]
    omega
  simp only [paethPredictor, paethExact, e1, ea, eb, ec, Nat.cast_le]

/-- On 8-bit samples no operation of `paethPredictor` overflows. -/
theorem paethPredictor_eq_exact_of_samples (a b c : Int) (ha : 0 ≤ a ∧ a ≤ 255)
    (hb : 0 ≤ b ∧ b ≤ 255) (hc : 0 ≤ c ∧ c ≤ 255) :
    paethPredictor a b c = paethExact a b c :=
  paethPredictor_eq_exact a b c (by omega) (by omega) (by omega) (by omega) (by omega)

end ImageCodec

/-- C5, as stated, fails: the function computes in 32-bit `int`, and for
`L = A = 2147483647`, `C = 0` the sum `L + A` wraps; `paethPredictor` returns `C = 0`,
which is farther from `p = L + A - C` than `L` is. -/
theorem paeth_wraps_at_int_max :
    paethPredictor 2147483647 2147483647 0 = 0 ∧
    |(2147483647 : Int) - (2147483647 + 2147483647 - 0)|
      < |(0 : Int) - (2147483647 + 2147483647 - 0)| :=
  ⟨by decide, by norm_num⟩

/-- C5, amended. PAETH predictor: for all `L`, `A`, `C` for which no 32-bit operation of
the function overflows, that is `L + A` and `p = L + A - C` lie in `[-2^31, 2^31 - 1]` and
the differences `p - L = A - C`, `p - A = L - C`, `p - C = L + A - 2C` lie in
`[-(2^31 - 1), 2^31 - 1]` (in particular for all 8-bit samples), the value
`paethPredictor L A C` is one of `L`, `A`, `C`, its distance to `p` is minimal among the
three, and among equally close candidates the first in the order `L`, `A`, `C` is
returned: `L` whenever `L` is closest, else `A` whenever `A` is closest, else `C`. -/
theorem paeth_closest_first (L A C : Int)
    (hsum : -2147483648 ≤ L + A ∧ L + A ≤ 2147483647)
    (hp : -2147483648 ≤ L + A - C ∧ L + A - C ≤ 2147483647)
    (hpa : -2147483647 ≤ A - C ∧ A - C ≤ 2147483647)
    (hpb : -2147483647 ≤ L - C ∧ L - C ≤ 2147483647)
    (hpc : -2147483647 ≤ L + A - 2 * C ∧ L + A - 2 * C ≤ 2147483647) :
    (paethPredictor L A C = L ∨ paethPredictor L A C = A ∨ paethPredictor L A C = C) ∧
    |paethPredictor L A C - (L + A - C)| ≤ |L - (L + A - C)| ∧
    |paethPredictor L A C - (L + A - C)| ≤ |A - (L + A - C)| ∧
    |paethPredictor L A C - (L + A - C)| ≤ |C - (L + A - C)| ∧
    ((|L - (L + A - C)| ≤ |A - (L + A - C)| ∧ |L - (L + A - C)| ≤ |C - (L + A - C)|) →
      paethPredictor L A C = L) ∧
    (¬ (|L - (L + A - C)| ≤ |A - (L + A - C)| ∧ |L - (L + A - C)| ≤ |C - (L + A - C)|) →
      (|A - (L + A - C)| ≤ |L - (L + A - C)| ∧ |A - (L + A - C)| ≤ |C - (L + A - C)|) →
      paethPredictor L A C = A) ∧
    (¬ (|L - (L + A - C)| ≤ |A - (L + A - C)| ∧ |L - (L + A - C)| ≤ |C - (L + A - C)|) →
      ¬ (|A - (L + A - C)| ≤ |L - (L + A - C)| ∧ |A - (L + A - C)| ≤ |C - (L + A - C)|) →
      paethPredictor L A C = C) := by
  rw [paethPredictor_eq_exact L A C hsum hp hpa hpb hpc]
  simp only [paethExact, Int.abs_eq_natAbs]
  split_ifs <;> omega

theorem paeth_closest_first_witness :
    paethPredictor 10 12 11 = 11 ∧
    |paethPredictor 10 12 11 - (10 + 12 - 11)| ≤ |(10 : Int) - (10 + 12 - 11)| ∧
    |paethPredictor 10 12 11 - (10 + 12 - 11)| ≤ |(11 : Int) - (10 + 12 - 11)| :=
  ⟨by decide,
    (paeth_closest_first 10 12 11 (by decide) (by decide) (by decide) (by decide)
      (by decide)).2.1,
    (paeth_closest_first 10 12 11 (by decide) (by decide) (by decide) (by decide)
      (by decide)).2.2.2.1⟩

namespace ImageCodec

/-- The prediction at a pixel inside the raster, from the three neighbour values. -/
theorem prediction_from_neighbours (predictor : Predictor) (image : List Nat) (w h x y : Nat)
    (L A C : Int) (hlen : image.length = w * h) (hx : x < w) (hy : y < h)
    (hL : L = if x = 0 then 0 else (image.getD (y * w + (x - 1)) 0 : Int))
    (hA : A = if y = 0 then 0 else (image.getD ((y - 1) * w + x) 0 : Int))
    (hC : C = if x = 0 ∨ y = 0 then 0 else (image.getD ((y - 1) * w + (x - 1)) 0 : Int)) :
    predictPixel predictor image w x y = .ok (predictFrom predictor L A C) := by
  have hidx := raster_lt w h x y hx hy
  have hL' : L = if 0 < x then (image.getD (y * w + x - 1) 0 : Int) else 0 := by
    rw [hL]
    by_cases hx0 : x = 0
    · simp [hx0]
    · rw [if_neg hx0, if_pos (by omega), show y * w + (x - 1) = y * w + x - 1 by omega]
  have hA' : A = if 0 < y then (image.getD ((y - 1) * w + x) 0 : Int) else 0 := by
    rw [hA]
    by_cases hy0 : y = 0
    · simp [hy0]
    · rw [if_neg hy0, if_pos (by omega)]
  have hC' : C = if 0 < x ∧ 0 < y then (image.getD ((y - 1) * w + x - 1) 0 : Int) else 0 := by
    rw [hC]
    by_cases hxy : x = 0 ∨ y = 0
    · rw [if_pos hxy, if_neg (by omega)]
    · rw [if_neg hxy, if_pos (by omega),
        show (y - 1) * w + (x - 1) = (y - 1) * w + x - 1 by omega]
  rw [predictPixel_eq_total predictor image w x y hx (by omega)]
  simp only [predictTotal, ← hL', ← hA', ← hC']

end ImageCodec

/-- C6, as stated, fails: the raster indices are computed in 32-bit `int`.  On the
65535 x 32769 raster of samples 9, at pixel (65534, 32768), the left sample is 9 but the
index `y * width + x - 1 = 2147516413` wraps to a negative `int`, and `predictPixel` reads
outside the raster instead of returning `L = 9` for PREV. -/
theorem predictPixel_left_index_wraps :
    (List.replicate (65535 * 32769) 9 : List Nat).length = 65535 * 32769 ∧
    (65534 : Nat) < 65535 ∧ (32768 : Nat) < 32769 ∧
    (List.replicate (65535 * 32769) 9 : List Nat)[32768 * 65535 + (65534 - 1)]? = some 9 ∧
    predictPixel32 .PREV_PIXEL (List.replicate (65535 * 32769) 9) 65535 65534 32768
      = .error .outOfBounds :=
  ⟨List.length_replicate _ _, by decide, by decide,
    by rw [List.getElem?_replicate, if_pos (by norm_num)], by decide⟩

/-- C6, amended. Predictor table and edge conditions: for an image of length
`w * h ≤ 2^31 - 1` (every raster index fits a 32-bit `int`) and a pixel `(x, y)` inside
it, with `L` the left sample (0 if `x = 0`), `A` the sample above (0 if `y = 0`) and `C`
the upper-left sample (0 if `x = 0` or `y = 0`), `predictPixel` returns `L` for PREV, `A`
for ABOVE, `(L + A) / 2` for AVERAGE, `L + A - C` for JPEG_LS and `L + (A - C) / 2` for
GRADIENT, the division truncating toward zero (`Int.tdiv`); and every predictor predicts
0 at pixel `(0, 0)`. -/
theorem predictor_table (predictor : Predictor) (image : List Nat) (w h x y : Nat)
    (L A C : Int) (hlen : image.length = w * h) (hsize : w * h ≤ 2147483647)
    (hx : x < w) (hy : y < h)
    (hL : L = if x = 0 then 0 else (image.getD (y * w + (x - 1)) 0 : Int))
    (hA : A = if y = 0 then 0 else (image.getD ((y - 1) * w + x) 0 : Int))
    (hC : C = if x = 0 ∨ y = 0 then 0 else (image.getD ((y - 1) * w + (x - 1)) 0 : Int)) :
    (predictor = .PREV_PIXEL → predictPixel32 predictor image w x y = .ok L) ∧
    (predictor = .ABOVE_PIXEL → predictPixel32 predictor image w x y = .ok A) ∧
    (predictor = .AVERAGE_PREDICTOR →
      predictPixel32 predictor image w x y = .ok ((L + A).tdiv 2)) ∧
    (predictor = .PAETH_PREDICTOR →
      predictPixel32 predictor image w x y = .ok (paethPredictor L A C)) ∧
    (predictor = .JPEG_LS_PREDICTOR →
      predictPixel32 predictor image w x y = .ok (L + A - C)) ∧
    (predictor = .GRADIENT_PREDICTOR →
      predictPixel32 predictor image w x y = .ok (L + (A - C).tdiv 2)) ∧
    predictPixel32 predictor image w 0 0 = .ok 0 := by
  have hidx := raster_lt w h x y hx hy
  have hp : predictPixel32 predictor image w x y = .ok (predictFrom predictor L A C) :=
    (predictPixel32_eq predictor image w x y hx (by omega)).trans
      (prediction_from_neighbours predictor image w h x y L A C hlen hx hy hL hA hC)
  rw [hp]
  refine ⟨?_, ?_, ?_, ?_, ?_, ?_, ?_⟩
  · rintro rfl; rfl
  · rintro rfl; rfl
  · rintro rfl; rfl
  · rintro rfl; rfl
  · rintro rfl; rfl
  · rintro rfl; rfl
  · cases predictor <;> rfl

theorem predictor_table_witness :
    (Predictor.GRADIENT_PREDICTOR = .PREV_PIXEL →
      predictPixel32 .GRADIENT_PREDICTOR [200, 3, 0, 255, 17, 90] 3 1 1 = .ok 255) ∧
    (Predictor.GRADIENT_PREDICTOR = .ABOVE_PIXEL →
      predictPixel32 .GRADIENT_PREDICTOR [200, 3, 0, 255, 17, 90] 3 1 1 = .ok 3) ∧
    (Predictor.GRADIENT_PREDICTOR = .AVERAGE_PREDICTOR →
      predictPixel32 .GRADIENT_PREDICTOR [200, 3, 0, 255, 17, 90] 3 1 1
        = .ok ((255 + 3 : Int).tdiv 2)) ∧
    (Predictor.GRADIENT_PREDICTOR = .PAETH_PREDICTOR →
      predictPixel32 .GRADIENT_PREDICTOR [200, 3, 0, 255, 17, 90] 3 1 1
        = .ok (paethPredictor 255 3 200)) ∧
    (Predictor.GRADIENT_PREDICTOR = .JPEG_LS_PREDICTOR →
      predictPixel32 .GRADIENT_PREDICTOR [200, 3, 0, 255, 17, 90] 3 1 1
        = .ok (255 + 3 - 200)) ∧
    (Predictor.GRADIENT_PREDICTOR = .GRADIENT_PREDICTOR →
      predictPixel32 .GRADIENT_PREDICTOR [200, 3, 0, 255, 17, 90] 3 1 1
        = .ok (255 + (3 - 200 : Int).tdiv 2)) ∧
    predictPixel32 .GRADIENT_PREDICTOR [200, 3, 0, 255, 17, 90] 3 0 0 = .ok 0 :=
  predictor_table .GRADIENT_PREDICTOR [200, 3, 0, 255, 17, 90] 3 2 1 1 255 3 200
    (by decide) (by decide) (by decide) (by decide) (by decide) (by decide) (by decide)

/-- C7, as stated, fails: on the 2x2 image {10,12,11,14} the PAETH prediction at pixel
(1,1) is 12, not 13, and the residuals are not {10,2,1,1}. -/
theorem stated_paeth_residuals_differ :
    predictPixel .PAETH_PREDICTOR [10, 12, 11, 14] 2 1 1 ≠ .ok 13 ∧
    computeResiduals .PAETH_PREDICTOR [10, 12, 11, 14] 2 2 ≠ .ok [10, 2, 1, 1] := by
  decide

/-- C7, amended. For the 2x2 image {10,12,11,14} with the PAETH predictor the predictions
in raster order are 0, 10, 10, 12 and the residuals are {10, 2, 1, 2}; encode then decode
yields {10,12,11,14} (for a divisor that fits the 16-bit header field). -/
theorem paeth_scenario (fp : DoubleOps)
    (hm : calculateOptimalM fp [10, 2, 1, 2] < 65536) :
    predictPixel .PAETH_PREDICTOR [10, 12, 11, 14] 2 0 0 = .ok 0 ∧
    predictPixel .PAETH_PREDICTOR [10, 12, 11, 14] 2 1 0 = .ok 10 ∧
    predictPixel .PAETH_PREDICTOR [10, 12, 11, 14] 2 0 1 = .ok 10 ∧
    predictPixel .PAETH_PREDICTOR [10, 12, 11, 14] 2 1 1 = .ok 12 ∧
    computeResiduals .PAETH_PREDICTOR [10, 12, 11, 14] 2 2 = .ok [10, 2, 1, 2] ∧
    ∃ bits, encode fp .PAETH_PREDICTOR [10, 12, 11, 14] 2 2 = .ok bits ∧
      decode .PAETH_PREDICTOR bits 2 2 = .ok [10, 12, 11, 14] := by
  have hres : residualList .PAETH_PREDICTOR [10, 12, 11, 14] 2 2 = [10, 2, 1, 2] := by decide
  refine ⟨by decide, by decide, by decide, by decide, by decide, _,
    encode_eq_frame fp .PAETH_PREDICTOR [10, 12, 11, 14] 2 2 (by decide) (by decide),
    decode_frame .PAETH_PREDICTOR [10, 12, 11, 14] 2 2 _ 2 2 .PAETH_PREDICTOR
      (calculateOptimalM_pos fp _) (by rw [hres]; exact hm) (by decide) (by decide)⟩

theorem paeth_scenario_witness :
    calculateOptimalM DoubleOps.exact [10, 2, 1, 2] = 3 ∧
    ∃ bits, encode DoubleOps.exact .PAETH_PREDICTOR [10, 12, 11, 14] 2 2 = .ok bits ∧
      decode .PAETH_PREDICTOR bits 2 2 = .ok [10, 12, 11, 14] :=
  ⟨by decide, (paeth_scenario DoubleOps.exact (by decide)).2.2.2.2.2⟩

/-- On the 2x2 image {10,12,11,14} the first pass of `encode`, in the 32-bit index
arithmetic of the source, yields the predictions and residuals of the exact-index
functions. -/
theorem first_pass_on_small_image :
    predictPixel32 .PAETH_PREDICTOR [10, 12, 11, 14] 2 0 0 = .ok 0 ∧
    predictPixel32 .PAETH_PREDICTOR [10, 12, 11, 14] 2 1 0 = .ok 10 ∧
    predictPixel32 .PAETH_PREDICTOR [10, 12, 11, 14] 2 0 1 = .ok 10 ∧
    predictPixel32 .PAETH_PREDICTOR [10, 12, 11, 14] 2 1 1 = .ok 12 ∧
    computeResiduals32 .PAETH_PREDICTOR [10, 12, 11, 14] 2 2 = .ok [10, 2, 1, 2] := by
  decide

/-- C8, as stated, fails: with width 0 and height 0 (and an empty raster) `encode` does
not fail with INVALID_SHAPE; it returns the 64 header bits.  A raster whose length differs
from `width * height` is accepted as well, and a negative width makes the first `reserve`
throw `std::length_error`, which is not INVALID_SHAPE. -/
theorem encode_zero_shape_returns_header :
    encode DoubleOps.exact .PAETH_PREDICTOR [] 0 0 = .ok (headerBits 0 0 8 .PAETH_PREDICTOR) ∧
    encode DoubleOps.exact .PAETH_PREDICTOR [] 0 0 ≠ .error .invalidShape ∧
    encode DoubleOps.exact .PAETH_PREDICTOR [7, 8, 9] 1 1 ≠ .error .invalidShape ∧
    encode DoubleOps.exact .PAETH_PREDICTOR [] (-1) 1 = .error .lengthError := by
  decide

/-- C8, amended. `encode` performs no shape validation: for no width, height and raster
does it fail with INVALID_SHAPE; and for non-negative `width`, `height` with
`width * height * 8 ≤ 2^31 - 1` (zero and values above 65535 included) and every raster
holding at least `width * height` samples it returns a frame of at least 64 bits, the one
of the first `width * height` samples; the frame is the 64-bit header alone when `width`
or `height` is zero. -/
theorem encode_without_shape_check (fp : DoubleOps) (predictor : Predictor)
    (image : List Nat) (width height : Int) :
    encode fp predictor image width height ≠ .error .invalidShape ∧
    (0 ≤ width → 0 ≤ height → width * height * 8 ≤ 2147483647 →
      width * height ≤ image.length →
      ∃ bits, encode fp predictor image width height = .ok bits ∧ 64 ≤ bits.length ∧
        encode fp predictor (image.take (width * height).toNat) width height = .ok bits ∧
        (width = 0 ∨ height = 0 → bits.length = 64)) := by
  constructor
  · have ho := encode_outcome fp predictor image width height
    intro he
    rw [he] at ho
    rcases ho with ho | ho <;> cases ho
  · intro hw0 hh0 hsize hlen
    obtain ⟨w, rfl⟩ := Int.eq_ofNat_of_zero_le hw0
    obtain ⟨h, rfl⟩ := Int.eq_ofNat_of_zero_le hh0
    have hsize' : w * h * 8 ≤ 2147483647 := by exact_mod_cast hsize
    have hlen' : w * h ≤ image.length := by exact_mod_cast hlen
    have htake : ((w : Int) * (h : Int)).toNat = w * h := by
      rw [show ((w : Int) * (h : Int)) = ((w * h : Nat) : Int) by push_cast; rfl]
      exact Int.toNat_ofNat _
    rw [htake]
    refine ⟨_, encode_eq_frame fp predictor image w h hlen' hsize', ?_, ?_, ?_⟩
    · rw [List.length_append, headerBits_length]; omega
    · rw [encode_eq_frame fp predictor _ w h (by rw [List.length_take]; omega) hsize',
        residualList_take predictor image w h hlen']
    · intro hz
      have h0 : w * h = 0 := by
        rcases hz with hz | hz
        · have : w = 0 := by exact_mod_cast hz
          simp [this]
        · have : h = 0 := by exact_mod_cast hz
          simp [this]
      rw [List.length_append, headerBits_length]
      simp [residualList, h0]

theorem encode_without_shape_check_witness :
    encode DoubleOps.exact .PREV_PIXEL [7, 8, 9] 1 2 ≠ .error .invalidShape ∧
    ∃ bits, encode DoubleOps.exact .PREV_PIXEL [7, 8, 9] 1 2 = .ok bits ∧ 64 ≤ bits.length ∧
      encode DoubleOps.exact .PREV_PIXEL (([7, 8, 9] : List Nat).take ((1 : Int) * 2).toNat) 1 2
        = .ok bits ∧
      ((1 : Int) = 0 ∨ (2 : Int) = 0 → bits.length = 64) :=
  ⟨(encode_without_shape_check DoubleOps.exact .PREV_PIXEL [7, 8, 9] 1 2).1,
    (encode_without_shape_check DoubleOps.exact .PREV_PIXEL [7, 8, 9] 1 2).2
      (by decide) (by decide) (by decide) (by decide)⟩

/-- C9, as stated, fails: a frame encoded for a 2x1 image, whose header stores width 2,
is decoded with width 1 and height 1 without any failure. -/
theorem decode_accepts_other_dimensions :
    (encode DoubleOps.exact .PREV_PIXEL [7, 7] 2 1).map (fun bits => readMSB (bits.take 16))
      = .ok 2 ∧
    (encode DoubleOps.exact .PREV_PIXEL [7, 7] 2 1 >>= fun bits => decode .PREV_PIXEL bits 1 1)
      = .ok [7] := by
  decide

/-- C9, amended. `decode` does not compare the width and height stored in the header with
its arguments: it never reads header bits 0..31, so its result is the same for two bit
sequences that agree from bit 32 on. -/
theorem decode_ignores_header_dimensions (predictor : Predictor) (bits bits' : List Bool)
    (w h : Nat) (hagree : ∀ i, 32 ≤ i → bits[i]? = bits'[i]?) :
    decode predictor bits w h = decode predictor bits' w h :=
  decode_congr predictor bits bits' w h (fun i hi _ => hagree i hi)
    (fun i hi => hagree i (by omega))

theorem decode_ignores_header_dimensions_witness :
    decode .PREV_PIXEL (List.replicate 32 false
        ++ (bitsMSB 16 1 ++ bitsMSB 16 0 ++ [true, true, false])) 2 1
      = decode .PREV_PIXEL (List.replicate 32 true
        ++ (bitsMSB 16 1 ++ bitsMSB 16 0 ++ [true, true, false])) 2 1 :=
  decode_ignores_header_dimensions .PREV_PIXEL _ _ 2 1 (by
    have key : ∀ (a b tail : List Bool), a.length = 32 → b.length = 32 →
        ∀ i, 32 ≤ i → (a ++ tail)[i]? = (b ++ tail)[i]? := by
      intro a b tail ha hb i hi
      rw [List.getElem?_append_right (by omega), List.getElem?_append_right (by omega), ha, hb]
    exact key _ _ _ (by simp) (by simp))

/-- The header read is unchecked: on a sequence shorter than 48 bits `decode` indexes the
bit vector past its end. -/
theorem decode_empty_reads_past_end :
    decode .PREV_PIXEL [] 1 1 = .error .outOfBounds ∧
    decode .PREV_PIXEL (List.replicate 47 false) 1 1 = .error .outOfBounds := by
  decide

namespace ImageCodec

theorem predictFrom_bounds_unit (predictor : Predictor) (L A C : Int)
    (hL : 0 ≤ L ∧ L ≤ 255) (hA : 0 ≤ A ∧ A ≤ 255) (hC : 0 ≤ C ∧ C ≤ 255)
    (hp : predictor = .PREV_PIXEL ∨ predictor = .ABOVE_PIXEL ∨
      predictor = .AVERAGE_PREDICTOR ∨ predictor = .PAETH_PREDICTOR) :
    0 ≤ predictFrom predictor L A C ∧ predictFrom predictor L A C ≤ 255 := by
  rcases hp with rfl | rfl | rfl | rfl <;> simp only [predictFrom]
  · omega
  · omega
  · have := tdiv_two_bounds (L + A) 0 255 (by omega) (by omega)
    omega
  · simp only [paethPredictor]
    split_ifs <;> omega

theorem tdiv_two_bounds_odd (x : Int) (lo hi : Int) (hlo : 0 ≤ lo) (hhi : 0 ≤ hi)
    (h1 : -(2 * lo + 1) ≤ x) (h2 : x ≤ 2 * hi + 1) : -lo ≤ x.tdiv 2 ∧ x.tdiv 2 ≤ hi := by
  rcases le_or_lt 0 x with h | h
  · rw [Int.tdiv_eq_ediv h (by norm_num)]; omega
  · have e : x.tdiv 2 = -((-x).tdiv 2) := by rw [Int.neg_tdiv]; simp
    rw [e, Int.tdiv_eq_ediv (by omega) (by norm_num)]; omega

theorem predictFrom_bounds_gradient (L A C : Int)
    (hL : 0 ≤ L ∧ L ≤ 255) (hA : 0 ≤ A ∧ A ≤ 255) (hC : 0 ≤ C ∧ C ≤ 255) :
    -127 ≤ predictFrom .GRADIENT_PREDICTOR L A C ∧
      predictFrom .GRADIENT_PREDICTOR L A C ≤ 382 := by
  simp only [predictFrom]
  have := tdiv_two_bounds_odd (A - C) 127 127 (by omega) (by omega) (by omega) (by omega)
  omega

/-- Range of the residual at raster index `k` of an 8-bit raster, by predictor. -/
theorem residualAt_range (predictor : Predictor) (image : List Nat) (w k : Nat)
    (h8 : ∀ p ∈ image, p ≤ 255) :
    ((predictor = .PREV_PIXEL ∨ predictor = .ABOVE_PIXEL ∨
        predictor = .AVERAGE_PREDICTOR ∨ predictor = .PAETH_PREDICTOR) →
      -255 ≤ residualAt predictor image w k ∧ residualAt predictor image w k ≤ 255) ∧
    (predictor = .JPEG_LS_PREDICTOR →
      -510 ≤ residualAt predictor image w k ∧ residualAt predictor image w k ≤ 510) ∧
    (predictor = .GRADIENT_PREDICTOR →
      -382 ≤ residualAt predictor image w k ∧ residualAt predictor image w k ≤ 382) := by
  have hk := getD_le_255 image h8 k
  have hL := sample_or_zero_bounds image h8 (0 < k % w) (k / w * w + k % w - 1)
  have hA := sample_or_zero_bounds image h8 (0 < k / w) ((k / w - 1) * w + k % w)
  have hC := sample_or_zero_bounds image h8 (0 < k % w ∧ 0 < k / w)
    ((k / w - 1) * w + k % w - 1)
  refine ⟨?_, ?_, ?_⟩
  · intro hp
    have hb := predictFrom_bounds_unit predictor _ _ _ hL hA hC hp
    unfold residualAt predictTotal
    omega
  · rintro rfl
    have hb := predictFrom_bounds .JPEG_LS_PREDICTOR _ _ _ hL hA hC
    unfold residualAt predictTotal
    omega
  · rintro rfl
    have hb := predictFrom_bounds_gradient _ _ _ hL hA hC
    unfold residualAt predictTotal
    omega

end ImageCodec

/-- The bounds of the residuals for the first pass of `encode` in the 32-bit index
arithmetic of the source, on rasters of at most `2^31 - 1` samples. -/
theorem first_pass_residual_bounds (predictor : Predictor) (image : List Nat) (w h : Nat)
    (hlen : image.length = w * h) (hsize : w * h ≤ 2147483647)
    (h8 : ∀ p ∈ image, p ≤ 255) :
    ∃ rs, computeResiduals32 predictor image w h = .ok rs ∧ ∀ r ∈ rs,
      ((predictor = .PREV_PIXEL ∨ predictor = .ABOVE_PIXEL ∨
          predictor = .AVERAGE_PREDICTOR ∨ predictor = .PAETH_PREDICTOR) →
        -255 ≤ r ∧ r ≤ 255) ∧
      (predictor = .JPEG_LS_PREDICTOR → -510 ≤ r ∧ r ≤ 510) ∧
      (predictor = .GRADIENT_PREDICTOR → -382 ≤ r ∧ r ≤ 382) := by
  refine ⟨_, (computeResiduals32_eq predictor image w h hsize).trans
    (computeResiduals_eq predictor image w h (by omega)), ?_⟩
  intro r hr
  simp only [residualList, List.mem_map] at hr
  obtain ⟨k, _, rfl⟩ := hr
  exact residualAt_range predictor image w k h8

/-! ## Streams of codewords, parameter changes, codeword length -/

namespace Golomb

theorem decode_at_codeword (g : Golomb) (hm : 1 ≤ g.m) (pre rest : List Bool) (v : Int) :
    g.decode (pre ++ (g.encode v ++ rest)) pre.length
      = .ok { value := v, bitsConsumed := (g.encode v).length } := by
  unfold decode
  rw [List.drop_left]
  exact decodeFront_encode_append g hm v rest

/-- Decoding as many symbols as were encoded, one after another, from the concatenation
of their codewords (placed after any bits `pre` and before any bits `rest`) gives the
values back and stops right after the last codeword. -/
theorem decodeStream_codewords (g : Golomb) (hm : 1 ≤ g.m) (vs : List Int)
    (pre rest : List Bool) :
    decodeStream g (pre ++ ((vs.map g.encode).flatten ++ rest)) vs.length pre.length
      = .ok (vs, pre.length + (vs.map g.encode).flatten.length) := by
  induction vs generalizing pre with
  | nil => simp [decodeStream]
  | cons v tl ih =>
    have e1 : pre ++ (((v :: tl).map g.encode).flatten ++ rest)
        = pre ++ (g.encode v ++ ((tl.map g.encode).flatten ++ rest)) := by simp
    have e2 : pre ++ (g.encode v ++ ((tl.map g.encode).flatten ++ rest))
        = (pre ++ g.encode v) ++ ((tl.map g.encode).flatten ++ rest) := by simp
    have hstep := decode_at_codeword g hm pre ((tl.map g.encode).flatten ++ rest) v
    have hrest := ih (pre ++ g.encode v)
    rw [List.length_append] at hrest
    rw [e1, List.length_cons, decodeStream, hstep]
    simp only []
    rw [e2, hrest]
    simp [Nat.add_assoc]

/-- No codeword is a proper prefix of another: a codeword followed by `tail` is a
codeword only if `tail` is empty and the two values are equal. -/
theorem encode_prefix_free (g : Golomb) (hm : 1 ≤ g.m) (v₁ v₂ : Int) (tail : List Bool)
    (h : g.encode v₁ ++ tail = g.encode v₂) : v₁ = v₂ ∧ tail = [] := by
  have h1 := decodeFront_encode_append g hm v₁ tail
  have h2 := decodeFront_encode_append g hm v₂ []
  rw [List.append_nil, ← h, h1] at h2
  simp only [Except.ok.injEq, DecodeResult.mk.injEq, List.length_append] at h2
  refine ⟨h2.1, ?_⟩
  have : tail.length = 0 := by omega
  exact List.eq_nil_of_length_eq_zero this

/-- The derived parameters after `setM k` are those of a coder constructed with `k`. -/
theorem updateParameters_setM (g : Golomb) (k : Nat) :
    updateParameters { g with m := k } = updateParameters (coderOf k g.mode) := rfl

theorem encode_congr (g g' : Golomb) (h : updateParameters g = updateParameters g')
    (v : Int) : g.encode v = g'.encode v := by
  unfold encode
  rw [h]

theorem encodeTo_congr (g g' : Golomb) (h : updateParameters g = updateParameters g')
    (v : Int) (sink : List Bool) : g.encodeTo v sink = g'.encodeTo v sink := by
  unfold encodeTo
  rw [h]

theorem decode_congr_parameters (g g' : Golomb) (h : updateParameters g = updateParameters g')
    (bits : List Bool) (pos : Nat) : g.decode bits pos = g'.decode bits pos := by
  unfold decode decodeFront
  rw [h]

theorem encode_length (g : Golomb) (v : Int) :
    (g.encode v).length = mapSigned g.mode v / g.m + 1 +
      (if mapSigned g.mode v % g.m < threshold g.m then ceilLog2 g.m - 1 else ceilLog2 g.m) := by
  rw [encode_eq]
  split_ifs <;> simp [bitsMSB_length] <;> omega

end Golomb

/-- C13. Prefix freedom and stream decoding: for a coder constructed with any `m ≥ 1` and
any mode, no codeword is a proper prefix of another (a codeword followed by `tail` is a
codeword only for the same value and an empty `tail`), and decoding `N` symbols one after
another from the concatenation of `encode v₁ .. encode v_N`, each from the position where
the previous one ended, recovers exactly `v₁ .. v_N` and ends at the end of the bits. -/
theorem golomb_stream_decoding (m : Nat) (mode : Golomb.NegativeMode) (vs : List Int)
    (hm : 1 ≤ m) :
    ∃ g, Golomb.construct m mode = .ok g ∧
      (∀ (v₁ v₂ : Int) (tail : List Bool),
        g.encode v₁ ++ tail = g.encode v₂ → v₁ = v₂ ∧ tail = []) ∧
      g.decodeStream (vs.map g.encode).flatten vs.length 0
        = .ok (vs, (vs.map g.encode).flatten.length) := by
  have hg : 1 ≤ (Golomb.coderOf m mode).m := by rw [coderOf_m]; exact hm
  refine ⟨_, construct_of_pos m mode hm,
    fun v₁ v₂ tail h => Golomb.encode_prefix_free _ hg v₁ v₂ tail h, ?_⟩
  have h := Golomb.decodeStream_codewords (Golomb.coderOf m mode) hg vs [] []
  simpa using h

theorem golomb_stream_decoding_witness :
    ∃ g, Golomb.construct 3 .INTERLEAVING = .ok g ∧
      (∀ (v₁ v₂ : Int) (tail : List Bool),
        g.encode v₁ ++ tail = g.encode v₂ → v₁ = v₂ ∧ tail = []) ∧
      g.decodeStream (([4, -7, 0, 12] : List Int).map g.encode).flatten
          ([4, -7, 0, 12] : List Int).length 0
        = .ok ([4, -7, 0, 12], (([4, -7, 0, 12] : List Int).map g.encode).flatten.length) :=
  golomb_stream_decoding 3 .INTERLEAVING [4, -7, 0, 12] (by decide)

/-- C14. Parameter stability: for every `k ≥ 1` and every signed integer `v`, a coder on
which `setM k` has been called, whatever its previous state, encodes (`encode`,
`encodeTo`) and decodes exactly as a coder freshly constructed with divisor `k` and the
same mode, and round-trips `v`. -/
theorem setM_matches_fresh_coder (g : Golomb) (k : Nat) (v : Int) (sink bits : List Bool)
    (pos : Nat) (hk : 1 ≤ k) :
    ∃ g' fresh, g.setM k = .ok g' ∧ Golomb.construct k g.mode = .ok fresh ∧
      g'.encode v = fresh.encode v ∧
      g'.encodeTo v sink = fresh.encodeTo v sink ∧
      g'.decode bits pos = fresh.decode bits pos ∧
      g'.decode (g'.encode v) 0
        = .ok { value := v, bitsConsumed := (g'.encode v).length } := by
  have hu := Golomb.updateParameters_setM g k
  refine ⟨{ g with m := k }, Golomb.coderOf k g.mode, ?_, construct_of_pos k g.mode hk,
    Golomb.encode_congr _ _ hu v, Golomb.encodeTo_congr _ _ hu v sink,
    Golomb.decode_congr_parameters _ _ hu bits pos, ?_⟩
  · simp [Golomb.setM, show k ≠ 0 by omega]
  · have h := Golomb.decodeFront_encode_append { g with m := k } hk v []
    rw [List.append_nil] at h
    rw [Golomb.decode_zero, h]

theorem setM_matches_fresh_coder_witness :
    ∃ g' fresh, (Golomb.coderOf 4 .INTERLEAVING).setM 8 = .ok g' ∧
      Golomb.construct 8 (Golomb.coderOf 4 .INTERLEAVING).mode = .ok fresh ∧
      g'.encode 10 = fresh.encode 10 ∧
      g'.encodeTo 10 [true] = fresh.encodeTo 10 [true] ∧
      g'.decode [true, false, true] 1 = fresh.decode [true, false, true] 1 ∧
      g'.decode (g'.encode 10) 0
        = .ok { value := 10, bitsConsumed := (g'.encode 10).length } :=
  setM_matches_fresh_coder (Golomb.coderOf 4 .INTERLEAVING) 8 10 [true] [true, false, true] 1
    (by decide)

/-- The scenario of `testAdaptiveM`: a coder constructed with `m = 4` round-trips 10 and
15, and still does after `setM(8)` and after `setM(2)`. -/
theorem adaptive_m_scenario :
    ∃ g4 g8 g2, Golomb.construct 4 .INTERLEAVING = .ok g4 ∧ g4.setM 8 = .ok g8 ∧
      g8.setM 2 = .ok g2 ∧
      (g4.decode (g4.encode 10) 0).map (fun r => r.value) = .ok 10 ∧
      (g4.decode (g4.encode 15) 0).map (fun r => r.value) = .ok 15 ∧
      (g8.decode (g8.encode 10) 0).map (fun r => r.value) = .ok 10 ∧
      (g8.decode (g8.encode 15) 0).map (fun r => r.value) = .ok 15 ∧
      (g2.decode (g2.encode 10) 0).map (fun r => r.value) = .ok 10 ∧
      (g2.decode (g2.encode 15) 0).map (fun r => r.value) = .ok 15 ∧
      g8.encode 10 = (Golomb.coderOf 8 .INTERLEAVING).encode 10 ∧
      g2.encode 15 = (Golomb.coderOf 2 .INTERLEAVING).encode 15 :=
  ⟨Golomb.coderOf 4 .INTERLEAVING, { Golomb.coderOf 4 .INTERLEAVING with m := 8 },
    { Golomb.coderOf 4 .INTERLEAVING with m := 2 }, by decide, by decide, by decide,
    by decide, by decide, by decide, by decide, by decide, by decide, by decide, by decide⟩

/-- C15. Codeword length: in INTERLEAVING mode, for every `m ≥ 1` and every signed integer
`v` with zig-zag image `n` (`n = 2v` for `v ≥ 0`, `n = 2|v| - 1` for `v < 0`), the length
of `encode v` is `n / m + 1 + (b - 1 if n mod m < t else b)` with `b = ⌈log₂ m⌉` and
`t = 2^b - m` (nothing after the unary part for `m = 1`); and the four scenarios:
`m=5, v=0` gives 3 bits, `m=5, v=3` gives `1001`, `m=1, v=4` gives 9 bits, `m=4, v=10`
gives 8 bits. -/
theorem codeword_length (m : Nat) (v : Int) (n : Nat) (hm : 1 ≤ m)
    (hpos : 0 ≤ v → (n : Int) = 2 * v) (hneg : v < 0 → (n : Int) = 2 * |v| - 1) :
    (∃ g, Golomb.construct m .INTERLEAVING = .ok g ∧
      (g.encode v).length = n / m + 1 +
        (if n % m < 2 ^ Nat.clog 2 m - m then Nat.clog 2 m - 1 else Nat.clog 2 m) ∧
      (m = 1 → (g.encode v).length = n + 1)) ∧
    ((Golomb.coderOf 5 .INTERLEAVING).encode 0).length = 3 ∧
    (Golomb.coderOf 5 .INTERLEAVING).encode 3 = [true, false, false, true] ∧
    ((Golomb.coderOf 1 .INTERLEAVING).encode 4).length = 9 ∧
    ((Golomb.coderOf 4 .INTERLEAVING).encode 10).length = 8 := by
  refine ⟨⟨_, construct_of_pos m .INTERLEAVING hm, ?_⟩, by decide, by decide, by decide,
    by decide⟩
  have hn : Golomb.mapSigned .INTERLEAVING v = n := by
    simp only [Golomb.mapSigned]
    rw [Int.abs_eq_natAbs] at hneg
    split_ifs with h0
    · have := hpos h0; omega
    · have := hneg (by omega); omega
  have hlen := Golomb.encode_length (Golomb.coderOf m .INTERLEAVING) v
  rw [coderOf_m, show (Golomb.coderOf m .INTERLEAVING).mode = .INTERLEAVING from rfl, hn,
    Golomb.ceilLog2_eq_clog] at hlen
  by_cases hm1 : m = 1
  · subst hm1
    have hc : Nat.clog 2 1 = 0 := Nat.clog_one_right 2
    rw [hc] at hlen ⊢
    refine ⟨?_, fun _ => ?_⟩
    · rw [hlen]
      simp [Golomb.threshold]
    · rw [hlen]
      simp [Golomb.threshold]
  · refine ⟨?_, fun h1 => absurd h1 hm1⟩
    have ht : Golomb.threshold m = 2 ^ Nat.clog 2 m - m := by
      unfold Golomb.threshold
      rw [if_neg hm1, Golomb.ceilLog2_eq_clog]
    rw [hlen, ht]

theorem codeword_length_witness :
    (∃ g, Golomb.construct 5 .INTERLEAVING = .ok g ∧
      (g.encode (-3)).length = 5 / 5 + 1 +
        (if 5 % 5 < 2 ^ Nat.clog 2 5 - 5 then Nat.clog 2 5 - 1 else Nat.clog 2 5) ∧
      (5 = 1 → (g.encode (-3)).length = 5 + 1)) ∧
    ((Golomb.coderOf 5 .INTERLEAVING).encode 0).length = 3 ∧
    (Golomb.coderOf 5 .INTERLEAVING).encode 3 = [true, false, false, true] ∧
    ((Golomb.coderOf 1 .INTERLEAVING).encode 4).length = 9 ∧
    ((Golomb.coderOf 4 .INTERLEAVING).encode 10).length = 8 :=
  codeword_length 5 (-3) 5 (by decide) (by decide) (by decide)

/-! ## The reconstruction loop, pixel by pixel -/

namespace ImageCodec

end ImageCodec

/-- The frame `encode` builds with one predictor is decoded to another raster by a codec
constructed with another predictor: the header's predictor id is not consulted. -/
theorem decode_with_other_predictor :
    (encode DoubleOps.exact .PREV_PIXEL [10, 12, 11, 14] 2 2 >>= fun bits =>
      decode .PREV_PIXEL bits 2 2) = .ok [10, 12, 11, 14] ∧
    (encode DoubleOps.exact .PREV_PIXEL [10, 12, 11, 14] 2 2 >>= fun bits =>
      decode .ABOVE_PIXEL bits 2 2) = .ok [10, 2, 21, 5] := by
  decide

namespace ImageCodec

theorem mem_readIndices (w x y i : Nat) (hi : i ∈ readIndices w x y) :
    (0 < x ∧ i = y * w + x - 1) ∨ (0 < y ∧ i = (y - 1) * w + x) ∨
      (0 < x ∧ 0 < y ∧ i = (y - 1) * w + x - 1) := by
  unfold readIndices at hi
  simp only [List.mem_append] at hi
  rcases hi with (hi | hi) | hi
  · split_ifs at hi with hc
    · simp at hi; exact Or.inl ⟨hc, hi⟩
    · simp at hi
  · split_ifs at hi with hc
    · simp at hi; exact Or.inr (Or.inl ⟨hc, hi⟩)
    · simp at hi
  · split_ifs at hi with hc
    · simp at hi; exact Or.inr (Or.inr ⟨hc.1, hc.2, hi⟩)
    · simp at hi

/-- The prediction depends on the raster only through the indices of `readIndices`. -/
theorem predictPixel_congr_indices (predictor : Predictor) (image image' : List Nat)
    (w x y : Nat) (h : ∀ i ∈ readIndices w x y, image'[i]? = image[i]?) :
    predictPixel predictor image' w x y = predictPixel predictor image w x y := by
  have hL : 0 < x → vectorAt image' (y * w + x - 1) = vectorAt image (y * w + x - 1) :=
    fun h0 => vectorAt_congr _ _ _ (h _ (by simp [readIndices, h0]))
  have hA : 0 < y → vectorAt image' ((y - 1) * w + x) = vectorAt image ((y - 1) * w + x) :=
    fun h0 => vectorAt_congr _ _ _ (h _ (by simp [readIndices, h0]))
  have hC : 0 < x → 0 < y →
      vectorAt image' ((y - 1) * w + x - 1) = vectorAt image ((y - 1) * w + x - 1) :=
    fun h0 h1 => vectorAt_congr _ _ _ (h _ (by simp [readIndices, h0, h1]))
  unfold predictPixel
  by_cases hx0 : 0 < x <;> by_cases hy0 : 0 < y <;> simp [hx0, hy0, hL, hA, hC]

theorem readIndices_lt (w x y i : Nat) (hx : x < w) (hi : i ∈ readIndices w x y) :
    i < y * w + x := by
  rcases mem_readIndices w x y i hi with ⟨h0, rfl⟩ | ⟨h0, rfl⟩ | ⟨h0, h1, rfl⟩
  · omega
  · have := pred_row_index w x y h0; omega
  · have := pred_row_index w x y h1; omega

end ImageCodec

namespace ImageCodec

/-- On a pixel whose raster index fits a 32-bit `int`, the indices the source computes are
the exact ones. -/
theorem readIndices32_eq (w x y : Nat) (hx : x < w) (hi : y * w + x ≤ 2147483647) :
    readIndices32 w x y = List.map (fun i : Nat => (i : Int)) (readIndices w x y) := by
  unfold readIndices32 readIndices
  by_cases hx0 : 0 < x <;> by_cases hy0 : 0 < y
  · rw [if_pos (by omega), if_pos (by omega), if_pos (by omega), if_pos hx0, if_pos hy0,
      if_pos ⟨hx0, hy0⟩, left_index32 w x y hx0 hi,
      upperLeft_index32 w x y (by omega) hx0 hy0 hi, above_index32 w x y (by omega) hy0 hi]
    rfl
  · rw [if_pos (by omega), if_neg (by omega), if_neg (by omega), if_pos hx0, if_neg hy0,
      if_neg (by omega), left_index32 w x y hx0 hi]
    rfl
  · rw [if_neg (by omega), if_pos (by omega), if_neg (by omega), if_neg hx0, if_pos hy0,
      if_neg (by omega), above_index32 w x y (by omega) hy0 hi]
    rfl
  · rw [if_neg (by omega), if_neg (by omega), if_neg (by omega), if_neg hx0, if_neg hy0,
      if_neg (by omega)]
    rfl

end ImageCodec

/-- C19, as stated, fails: the indices are computed in 32-bit `int`.  On the
46341 x 46341 all-zero raster, at pixel (46340, 46340), the left index
`y * width + x - 1 = 2147488279` wraps to `-2147479017`, which is not within bounds, and
`predictPixel` reads outside the raster. -/
theorem predictPixel_reads_outside_large_raster :
    (List.replicate (46341 * 46341) 0 : List Nat).length = 46341 * 46341 ∧
    (46341 : Nat) ≥ 1 ∧ (46340 : Nat) < 46341 ∧
    readIndices32 46341 46340 46340 = [-2147479017, 2147441939, 2147441938] ∧
    predictPixel32 .PAETH_PREDICTOR (List.replicate (46341 * 46341) 0) 46341 46340 46340
      = .error .outOfBounds :=
  ⟨List.length_replicate _ _, by decide, by decide, by decide, by decide⟩

/-- C19, amended. Causality and index safety of the predictor: for an image of length
`w * h ≤ 2^31 - 1` (every raster index fits a 32-bit `int`) and a pixel `(x, y)` with
`x < w`, `y < h`, every index `predictPixel` reads is inside the raster and strictly below
the raster index `y * w + x`; `predictPixel` returns a value (no access outside the
raster); that value depends on the raster only through those indices, so it is the same
for any raster that agrees with `image` at all raster positions before `(x, y)`; and the
sample a reconstruction step of `decode` stores at `(x, y)` is the same for two rasters
under reconstruction that agree before `(x, y)`. -/
theorem predictor_causal (predictor : Predictor) (image : List Nat) (w h x y : Nat)
    (hlen : image.length = w * h) (hsize : w * h ≤ 2147483647) (hx : x < w) (hy : y < h) :
    (∀ i ∈ readIndices32 w x y,
      0 ≤ i ∧ i < ((y * w + x : Nat) : Int) ∧ i < (image.length : Int)) ∧
    (∃ p, predictPixel32 predictor image w x y = .ok p) ∧
    (∀ image' : List Nat,
      (∀ i ∈ readIndices32 w x y, image'[i.toNat]? = image[i.toNat]?) →
      predictPixel32 predictor image' w x y = predictPixel32 predictor image w x y) ∧
    (∀ image' : List Nat, (∀ i, i < y * w + x → image'[i]? = image[i]?) →
      predictPixel32 predictor image' w x y = predictPixel32 predictor image w x y) ∧
    (∀ (coder : Golomb) (bits : List Bool) (pos : Nat) (buf : List Nat),
      buf.length = w * h → (∀ i, i < y * w + x → buf[i]? = image[i]?) →
      (decodePixel predictor coder bits w x y (buf, pos)).map
          (fun state => (state.1[y * w + x]?, state.2))
        = (decodePixel predictor coder bits w x y (image, pos)).map
          (fun state => (state.1[y * w + x]?, state.2))) := by
  have hidx := raster_lt w h x y hx hy
  have hi : y * w + x ≤ 2147483647 := by omega
  have hri := readIndices32_eq w x y hx hi
  have hind : ∀ image' : List Nat,
      (∀ i ∈ readIndices32 w x y, image'[i.toNat]? = image[i.toNat]?) →
      predictPixel32 predictor image' w x y = predictPixel32 predictor image w x y := by
    intro image' hag
    rw [predictPixel32_eq predictor image' w x y hx hi,
      predictPixel32_eq predictor image w x y hx hi]
    apply predictPixel_congr_indices
    intro i hmem
    have := hag (i : Int) (by rw [hri]; exact List.mem_map.2 ⟨i, hmem, rfl⟩)
    rwa [Int.toNat_ofNat] at this
  have hcongr : ∀ image' : List Nat, (∀ i, i < y * w + x → image'[i]? = image[i]?) →
      predictPixel predictor image' w x y = predictPixel predictor image w x y :=
    fun image' hag => predictPixel_congr_indices predictor image image' w x y
      (fun i hmem => hag i (readIndices_lt w x y i hx hmem))
  refine ⟨fun i hmem => ?_,
    ⟨_, (predictPixel32_eq predictor image w x y hx hi).trans
      (predictPixel_eq_total predictor image w x y hx (by omega))⟩,
    hind, fun image' hag => ?_, ?_⟩
  · rw [hri] at hmem
    obtain ⟨j, hj, rfl⟩ := List.mem_map.1 hmem
    have := readIndices_lt w x y j hx hj
    exact ⟨Int.natCast_nonneg j, by exact_mod_cast this, by exact_mod_cast (by omega : j < image.length)⟩
  · rw [predictPixel32_eq predictor image' w x y hx hi,
      predictPixel32_eq predictor image w x y hx hi]
    exact hcongr image' hag
  · intro coder bits pos buf hbl hag
    rw [decodePixel_eq, decodePixel_eq, hcongr buf hag]
    cases coder.decode bits pos with
    | error e => rfl
    | ok r =>
      cases predictPixel predictor image w x y with
      | error e => rfl
      | ok p =>
        simp only [bind, Except.bind, Except.map]
        rw [List.getElem?_set_self (by omega), List.getElem?_set_self (by omega)]

theorem predictor_causal_witness :
    (∀ i ∈ readIndices32 3 1 1, 0 ≤ i ∧ i < ((1 * 3 + 1 : Nat) : Int) ∧
      i < ((([200, 3, 0, 255, 17, 90] : List Nat).length : Nat) : Int)) ∧
    (∃ p, predictPixel32 .PAETH_PREDICTOR [200, 3, 0, 255, 17, 90] 3 1 1 = .ok p) ∧
    readIndices32 3 1 1 = [3, 1, 0] :=
  ⟨(predictor_causal .PAETH_PREDICTOR [200, 3, 0, 255, 17, 90] 3 2 1 1
      (by decide) (by decide) (by decide) (by decide)).1,
    (predictor_causal .PAETH_PREDICTOR [200, 3, 0, 255, 17, 90] 3 2 1 1
      (by decide) (by decide) (by decide) (by decide)).2.1,
    by decide⟩

namespace ImageCodec

end ImageCodec

/-- Shape of `calculateOptimalM` on a non-empty sequence whose mean is not below `1e-10`:
the rounded double-precision quotient, raised to at least 1. -/
theorem calculateOptimalM_of_mean_not_small (fp : DoubleOps) (rs : List Int) (hne : rs ≠ [])
    (hbig : fp.meanBelowEps (rs.foldl (fun sum residual => sum + residual.natAbs) 0)
      rs.length = false) :
    calculateOptimalM fp rs
      = max 1 (fp.roundedM (rs.foldl (fun sum residual => sum + residual.natAbs) 0)
          rs.length) := by
  simp only [calculateOptimalM, hbig]
  cases rs with
  | nil => exact absurd rfl hne
  | cons r tl => simp
